import Mathlib

/-!
Verification of the tic-tac-toe promo repository.

Part 1 (`TTT`): shallow embedding of `src/public/game.mjs` — board evaluation,
heuristic scoring, minimax search with difficulty tiers, and move selection.

Part 2 (`Promo`): shallow embedding of the Express result endpoint
(`src/unnamed/part_002`, first file) — promo ledger, idempotency cache, and
the `POST /api/result` handler.

Conventions: a JS `null` cell is `Option.none`; the computer mark is `'O'`,
the player mark is `'X'`.  JS numbers that can be `±Infinity` during the
minimax fold are modelled by `JNum`.  `Math.random()`-driven choices are
modelled as explicit parameters carrying the range guarantees that
`Math.random` provides.  Recursion over the shrinking set of empty cells is
expressed with an explicit fuel argument; the top-level wrappers instantiate
the fuel with the board length, which always dominates the number of empty
cells, so the fuel never runs out on the executions the source performs.
-/

namespace TTT

/-- The two marks: `O` is the computer, `X` is the human player. -/
inductive Mark where
  | O : Mark
  | X : Mark
deriving DecidableEq, Repr

/-- A cell of the board: `none` is the JS `null` (empty). -/
abbrev Cell := Option Mark

/-- A board is the JS 9-element array of cells. -/
abbrev Board := List Cell

/-- `winningCombos` from `game.mjs`: 3 rows, 3 columns, 2 diagonals, in
the source order. -/
def winningCombos : List (Nat × Nat × Nat) :=
  [(0, 1, 2), (3, 4, 5), (6, 7, 8),
   (0, 3, 6), (1, 4, 7), (2, 5, 8),
   (0, 4, 8), (2, 4, 6)]

/-- `currentBoard[i]` — array indexing; out-of-range reads give `none`
(JS `undefined` is falsy, like `null`). -/
def cellAt (b : Board) (i : Nat) : Cell := b.getD i none

/-- The object `{ winner, combo, isDraw }` returned by `evaluateBoard`. -/
structure Outcome where
  winner : Option Mark
  combo : Option (Nat × Nat × Nat)
  isDraw : Bool
deriving DecidableEq, Repr

/-- One iteration of the `for (const combo of winningCombos)` loop body:
`currentBoard[a] && currentBoard[a] === currentBoard[b] && currentBoard[a]
=== currentBoard[c]` yields the shared mark, else nothing. -/
def comboWin (b : Board) (c : Nat × Nat × Nat) : Option Mark :=
  match cellAt b c.1 with
  | none => none
  | some m =>
      if cellAt b c.2.1 = some m ∧ cellAt b c.2.2 = some m then some m else none

/-- `evaluateBoard` from `game.mjs`: first winning combo (in the fixed
order) wins; otherwise `Draw` iff `currentBoard.every(Boolean)`; otherwise
`null` (ongoing). -/
def evaluateBoard (b : Board) : Option Outcome :=
  match winningCombos.findSome?
      (fun c => (comboWin b c).map (fun m => ⟨some m, some c, false⟩)) with
  | some o => some o
  | none =>
      if b.all (fun v => v.isSome) then some ⟨none, none, true⟩ else none

/-- The three cell values of a combo, `combo.map((index) => currentBoard[index])`. -/
def lineVals (b : Board) (c : Nat × Nat × Nat) : List Cell :=
  [cellAt b c.1, cellAt b c.2.1, cellAt b c.2.2]

/-- The contribution of one combo to `scoreBoard`: the body of its loop
(`continue` when both sides are present, then the four guarded additions). -/
def lineScore (vals : List Cell) : Int :=
  let oCount := vals.countP (fun v => v = some Mark.O)
  let xCount := vals.countP (fun v => v = some Mark.X)
  if oCount > 0 ∧ xCount > 0 then 0
  else (if oCount = 2 ∧ xCount = 0 then 3 else 0)
     + (if oCount = 1 ∧ xCount = 0 then 1 else 0)
     + (if xCount = 2 ∧ oCount = 0 then -3 else 0)
     + (if xCount = 1 ∧ oCount = 0 then -1 else 0)

/-- `scoreBoard` from `game.mjs`: fold the per-line contributions over the
8 combos, starting from `score = 0`. -/
def scoreBoard (b : Board) : Int :=
  winningCombos.foldl (fun score c => score + lineScore (lineVals b c)) 0

/-- JS numbers as they occur in the search: finite integers plus the two
infinities used as fold seeds (`-Infinity`, `Infinity`). -/
inductive JNum where
  | negInf : JNum
  | fin : Int → JNum
  | posInf : JNum
deriving DecidableEq, Repr

/-- Strict `<` on `JNum`, as JS number comparison. -/
def jlt : JNum → JNum → Bool
  | JNum.negInf, JNum.negInf => false
  | JNum.negInf, _ => true
  | JNum.fin _, JNum.negInf => false
  | JNum.fin a, JNum.fin b => a < b
  | JNum.fin _, JNum.posInf => true
  | JNum.posInf, _ => false

/-- `Math.max`. -/
def jmax (a b : JNum) : JNum := if jlt a b then b else a

/-- `Math.min`. -/
def jmin (a b : JNum) : JNum := if jlt b a then b else a

/-- `Number.isFinite(maxDepth) && depth >= maxDepth`; the only values the
source passes for `maxDepth` are `null` (`none`) and `3` (`some 3`). -/
def capReached (maxDepth : Option Nat) (depth : Nat) : Bool :=
  match maxDepth with
  | some md => depth ≥ md
  | none => false

/-- The indices the `forEach` loops act on: all `i < board.length` whose
cell is empty (`!value`). -/
def emptyIdx (b : Board) : List Nat :=
  (List.range b.length).filter (fun i => cellAt b i = none)

/-- Number of empty cells of a board. -/
def countEmpty (b : Board) : Nat := b.countP (fun c => c = none)

/-- The value minimax assigns to a terminal outcome at a given depth:
`Draw → 0`, computer win → `10 - depth`, player win → `depth - 10`. -/
def terminalValue (o : Outcome) (depth : Nat) : JNum :=
  if o.isDraw then JNum.fin 0
  else if o.winner = some Mark.O then JNum.fin (10 - (depth : Int))
  else JNum.fin ((depth : Int) - 10)

/-- `minimax` from `game.mjs`, with an explicit fuel bounding the recursion
depth.  The fuel-0 fallback `JNum.fin 0` is unreachable whenever
`countEmpty b ≤ fuel`, because a non-terminal board has an empty cell.
Terminal values, the depth cap, and the two `forEach` folds (seeded with
`-Infinity` / `Infinity`) follow the source line by line. -/
def minimaxFuel : Nat → Board → Nat → Bool → Option Nat → JNum
  | 0, b, depth, _, maxDepth =>
      match evaluateBoard b with
      | some outcome => terminalValue outcome depth
      | none =>
          if capReached maxDepth depth then JNum.fin (scoreBoard b) else JNum.fin 0
  | fuel' + 1, b, depth, isMaximizing, maxDepth =>
      match evaluateBoard b with
      | some outcome => terminalValue outcome depth
      | none =>
          if capReached maxDepth depth then JNum.fin (scoreBoard b)
          else if isMaximizing then
            (emptyIdx b).foldl
              (fun best i =>
                jmax best (minimaxFuel fuel' (b.set i (some Mark.O)) (depth + 1) false maxDepth))
              JNum.negInf
          else
            (emptyIdx b).foldl
              (fun best i =>
                jmin best (minimaxFuel fuel' (b.set i (some Mark.X)) (depth + 1) true maxDepth))
              JNum.posInf

/-- `minimax(currentBoard, depth, isMaximizing, maxDepth)`: the board length
(9 in every call the source makes) bounds the number of empty cells, so it
serves as fuel. -/
def minimax (b : Board) (depth : Nat) (isMaximizing : Bool) (maxDepth : Option Nat) : JNum :=
  minimaxFuel b.length b depth isMaximizing maxDepth

/-- `getBestMove` from `game.mjs`: iterate over all indices, skip filled
cells, score the hypothetical `'O'` placement with `minimax(..., 0, false,
maxDepth)`, and keep the strictly greatest score (first seen wins ties).
`bestScore` starts at `-Infinity` and `move` at `null`. -/
def getBestMove (b : Board) (maxDepth : Option Nat) : Option Nat :=
  ((List.range b.length).foldl
    (fun (acc : JNum × Option Nat) i =>
      if cellAt b i = none then
        let score := minimax (b.set i (some Mark.O)) 0 false maxDepth
        if jlt acc.1 score then (score, some i) else acc
      else acc)
    (JNum.negInf, none)).2

/-- `getRandomMove` from `game.mjs`.  `available` is the list of empty
indices; `choice` stands for `Math.floor(Math.random() * available.length)`,
which JS guarantees to be `< available.length` whenever the list is
non-empty. -/
def getRandomMove (b : Board) (choice : Nat) : Option Nat :=
  let available := (List.range b.length).filter (fun i => cellAt b i = none)
  if available.length = 0 then none else available.get? choice

/-- The three difficulty tiers of `difficultySettings`. -/
inductive Difficulty where
  | easy : Difficulty
  | normal : Difficulty
  | hard : Difficulty
deriving DecidableEq, Repr

/-- The `maxDepth` field of `difficultySettings`. -/
def settingsMaxDepth : Difficulty → Option Nat
  | Difficulty.easy => none
  | Difficulty.normal => some 3
  | Difficulty.hard => none

/-- `getAiMove` from `game.mjs` (`chooseMove` in the spec).  `blunder`
models the outcome of `Math.random() < settings.blunderRate`, which the
source only consults when `difficulty === 'easy'` (blunder rate 0.25; the
other tiers have rate 0 and short-circuit on the difficulty test). -/
def getAiMove (b : Board) (difficulty : Difficulty) (blunder : Bool) (choice : Nat) :
    Option Nat :=
  if difficulty = Difficulty.easy ∧ blunder = true then getRandomMove b choice
  else getBestMove b (settingsMaxDepth difficulty)

/-! ### Specification-side predicates for the evaluator and scorer -/

/-- A line is won by mark `m`: all three of its cells hold `m`. -/
def lineWins (b : Board) (c : Nat × Nat × Nat) (m : Mark) : Prop :=
  cellAt b c.1 = some m ∧ cellAt b c.2.1 = some m ∧ cellAt b c.2.2 = some m

instance (b : Board) (c : Nat × Nat × Nat) (m : Mark) : Decidable (lineWins b c m) :=
  inferInstanceAs (Decidable (_ ∧ _ ∧ _))

instance : Fintype Mark where
  elems := {Mark.O, Mark.X}
  complete := fun x => by cases x <;> simp

/-- The per-line heuristic value exactly as the specification words it:
lines with both sides present give 0, two computer marks and one empty
give `+3`, one computer mark and two empties `+1`, and symmetrically
`-3`/`-1` for the player. -/
def specLineScore (vals : List Cell) : Int :=
  let o := vals.countP (fun v => v = some Mark.O)
  let x := vals.countP (fun v => v = some Mark.X)
  let e := vals.countP (fun v => v = none)
  if o > 0 ∧ x > 0 then 0
  else if o = 2 ∧ e = 1 then 3
  else if o = 1 ∧ e = 2 then 1
  else if x = 2 ∧ e = 1 then -3
  else if x = 1 ∧ e = 2 then -1
  else 0

/-! ### Game-theoretic layer for the perfect-play claim -/

/-- Whose turn it is: `comp` moves place `'O'`, `player` moves place `'X'`. -/
inductive Turn where
  | comp : Turn
  | player : Turn
deriving DecidableEq, Repr

/-- The turn corresponding to minimax's `isMaximizing` flag. -/
def turnOfMax : Bool → Turn
  | true => Turn.comp
  | false => Turn.player

/-- `xForcesWinFuel fuel b t = true` iff, with `t` to move on `b`, the
player (`'X'`) can force reaching a terminal board won by `'X'`, whatever
the computer does.  Fueled recursion over the shrinking empty-cell set;
the fuel-0 branch is unreachable when `countEmpty b ≤ fuel`. -/
def xForcesWinFuel : Nat → Board → Turn → Bool
  | 0, b, _ =>
      match evaluateBoard b with
      | some o => decide (o.winner = some Mark.X)
      | none => false
  | fuel' + 1, b, t =>
      match evaluateBoard b with
      | some o => decide (o.winner = some Mark.X)
      | none =>
          match t with
          | Turn.player =>
              (emptyIdx b).any (fun i => xForcesWinFuel fuel' (b.set i (some Mark.X)) Turn.comp)
          | Turn.comp =>
              (emptyIdx b).all (fun i => xForcesWinFuel fuel' (b.set i (some Mark.O)) Turn.player)

/-- `'X'` can force a win from `b` with `t` to move. -/
def xCanForceWin (b : Board) (t : Turn) : Bool := xForcesWinFuel b.length b t

/-- One move of the play the claim quantifies over: the computer moves at
the cell chosen by `getAiMove` under the Hard difficulty, the player moves
at any empty cell; both only from non-terminal boards. -/
inductive HardStep : Board × Turn → Board × Turn → Prop where
  | comp (b : Board) (m : Nat) (blunder : Bool) (choice : Nat) :
      evaluateBoard b = none →
      getAiMove b Difficulty.hard blunder choice = some m →
      HardStep (b, Turn.comp) (b.set m (some Mark.O), Turn.player)
  | player (b : Board) (i : Nat) :
      evaluateBoard b = none → i < b.length → cellAt b i = none →
      HardStep (b, Turn.player) (b.set i (some Mark.X), Turn.comp)

/-- The invariant preserved by Hard play: a 9-cell board from which the
player cannot force a win. -/
def SafeState (p : Board × Turn) : Prop :=
  p.1.length = 9 ∧ xCanForceWin p.1 p.2 = false

/-! ### State-threading versions of the search

The source mutates the board in place (`currentBoard[index] = 'O'`), makes
the recursive call on the mutated array, then restores the cell
(`currentBoard[index] = null`).  The versions below thread that mutable
array explicitly — each `forEach` iteration reads the cell of the current
(threaded) array, places, recurses on the result array, and restores —
and return the array as the functions leave it, so that the no-mutation
claim is a real statement about the mutate-then-restore protocol. -/

def minimaxST : Nat → Board → Nat → Bool → Option Nat → JNum × Board
  | 0, b, depth, _, maxDepth =>
      match evaluateBoard b with
      | some outcome => (terminalValue outcome depth, b)
      | none =>
          if capReached maxDepth depth then (JNum.fin (scoreBoard b), b)
          else (JNum.fin 0, b)
  | fuel' + 1, b, depth, isMaximizing, maxDepth =>
      match evaluateBoard b with
      | some outcome => (terminalValue outcome depth, b)
      | none =>
          if capReached maxDepth depth then (JNum.fin (scoreBoard b), b)
          else if isMaximizing then
            (List.range b.length).foldl
              (fun (acc : JNum × Board) i =>
                if cellAt acc.2 i = none then
                  let sr := minimaxST fuel' (acc.2.set i (some Mark.O)) (depth + 1) false maxDepth
                  (jmax acc.1 sr.1, sr.2.set i none)
                else acc)
              (JNum.negInf, b)
          else
            (List.range b.length).foldl
              (fun (acc : JNum × Board) i =>
                if cellAt acc.2 i = none then
                  let sr := minimaxST fuel' (acc.2.set i (some Mark.X)) (depth + 1) true maxDepth
                  (jmin acc.1 sr.1, sr.2.set i none)
                else acc)
              (JNum.posInf, b)

/-- `getBestMove` with the threaded board made explicit. -/
def getBestMoveST (b : Board) (maxDepth : Option Nat) : Option Nat × Board :=
  let r := (List.range b.length).foldl
    (fun (acc : (JNum × Option Nat) × Board) i =>
      if cellAt acc.2 i = none then
        let placed := acc.2.set i (some Mark.O)
        let sr := minimaxST placed.length placed 0 false maxDepth
        ((if jlt acc.1.1 sr.1 then (sr.1, some i) else acc.1), sr.2.set i none)
      else acc)
    ((JNum.negInf, (none : Option Nat)), b)
  (r.1.2, r.2)

/-- `getAiMove` with the threaded board made explicit (`getRandomMove`
never writes to the board). -/
def getAiMoveST (b : Board) (difficulty : Difficulty) (blunder : Bool) (choice : Nat) :
    Option Nat × Board :=
  if difficulty = Difficulty.easy ∧ blunder = true then (getRandomMove b choice, b)
  else getBestMoveST b (settingsMaxDepth difficulty)

/-- One iteration of `getBestMove`'s comparison on an already-empty cell:
keep the strictly greater score, first seen wins ties. -/
def bestStep (s : Nat → JNum) (acc : JNum × Option Nat) (i : Nat) : JNum × Option Nat :=
  if jlt acc.1 (s i) then (s i, some i) else acc

/-! ### Concrete boards used by witnesses -/

/-- `['O','O',null,'X','X',null,null,null,null]` — the computer can win at 2. -/
def boardWin2 : Board :=
  [some Mark.O, some Mark.O, none, some Mark.X, some Mark.X, none, none, none, none]

/-- `['X','X',null,null,'O',null,null,null,null]` — the computer must block at 2. -/
def boardBlock2 : Board :=
  [some Mark.X, some Mark.X, none, none, some Mark.O, none, none, none, none]

/-- A full drawn board (the draw case of the repository's test suite). -/
def boardDraw : Board :=
  [some Mark.X, some Mark.O, some Mark.X,
   some Mark.X, some Mark.O, some Mark.O,
   some Mark.O, some Mark.X, some Mark.X]

/-- A non-terminal board from which the player cannot force a win (the
computer to move has an immediate win at cell 8). -/
def boardSafe : Board :=
  [some Mark.O, some Mark.X, some Mark.O,
   some Mark.X, some Mark.O, some Mark.X,
   none, none, none]

/-- A board with no empty cell (the drawn board again, spelled as the
`no empty cell` edge case of `chooseMove`). -/
def boardFull : Board :=
  [some Mark.X, some Mark.O, some Mark.X,
   some Mark.X, some Mark.O, some Mark.O,
   some Mark.O, some Mark.X, some Mark.X]

end TTT

namespace Promo

/-!
Embedding of the result endpoint (`src/unnamed/part_002`, first file).
`Date.now()` is modelled by an explicit `now` parameter (the handful of
calls within one request are treated as returning the same instant), the
cookie-based `getSessionId` by an already-resolved `sid` argument, and the
stream of `crypto.randomInt` draws inside `generateUniquePromoCode` by an
explicit list of candidate code strings.  JS `Map`s are insertion-ordered
association lists; `Map.set` overwrites in place or appends, `Map.get`
returns the entry of the first matching key, `Map.delete` removes it.
Timestamp subtraction uses truncated `Nat` subtraction, which agrees with
the JS comparisons performed on the differences (`age > TTL` and
`age < cooldown` behave identically when the difference would be
negative). -/

def PROMO_TTL_MS : Nat := 7 * 24 * 60 * 60 * 1000
def SESSION_COOLDOWN_MS : Nat := 24 * 60 * 60 * 1000
def EVENT_TTL_MS : Nat := 24 * 60 * 60 * 1000

/-- `issuedBySession` entry: `{ code, createdAt }`. -/
structure SessionEntry where
  code : String
  createdAt : Nat
deriving DecidableEq, Repr

/-- `issuedCodes` entry: `{ createdAt, sessionId, redeemed }`. -/
structure CodeEntry where
  createdAt : Nat
  sessionId : String
  redeemed : Bool
deriving DecidableEq, Repr

/-- Success body: `{ status: 'ok', code? }`. -/
structure ResponsePayload where
  status : String
  code : Option String
deriving DecidableEq, Repr

/-- `processedEvents` entry: `{ createdAt, response }`. -/
structure EventEntry where
  createdAt : Nat
  response : ResponsePayload
deriving DecidableEq, Repr

/-- A JS `Map` with string keys, as an insertion-ordered association list. -/
abbrev JMap (α : Type) := List (String × α)

/-- `Map.get`. -/
def mapGet {α} (m : JMap α) (k : String) : Option α :=
  (m.find? (fun p => p.1 = k)).map (fun p => p.2)

/-- `Map.set`: overwrite the existing entry in place, else append. -/
def mapSet {α} (m : JMap α) (k : String) (v : α) : JMap α :=
  if (m.find? (fun p => p.1 = k)).isSome then
    m.map (fun p => if p.1 = k then (k, v) else p)
  else m ++ [(k, v)]

/-- `Map.delete`. -/
def mapDelete {α} (m : JMap α) (k : String) : JMap α :=
  m.filter (fun p => ¬ p.1 = k)

/-- The three process-wide stores. -/
structure ServerState where
  issuedBySession : JMap SessionEntry
  issuedCodes : JMap CodeEntry
  processedEvents : JMap EventEntry
deriving DecidableEq, Repr

/-- `pruneExpired`: lazily delete the entries whose age exceeds their
retention window, in all three maps. -/
def pruneExpired (now : Nat) (s : ServerState) : ServerState :=
  { processedEvents := s.processedEvents.filter (fun p => now - p.2.createdAt ≤ EVENT_TTL_MS),
    issuedCodes := s.issuedCodes.filter (fun p => now - p.2.createdAt ≤ PROMO_TTL_MS),
    issuedBySession := s.issuedBySession.filter (fun p => now - p.2.createdAt ≤ PROMO_TTL_MS) }

/-- `getSessionPromo`: look up the session's entry; delete it and report
nothing if it outlived the promo TTL; return its code while inside the
cooldown window; otherwise report nothing.  Returns the possibly mutated
`issuedBySession` store alongside. -/
def getSessionPromo (now : Nat) (s : ServerState) (sessionId : String) :
    Option String × ServerState :=
  match mapGet s.issuedBySession sessionId with
  | none => (none, s)
  | some entry =>
      let age := now - entry.createdAt
      if age > PROMO_TTL_MS then
        (none, { s with issuedBySession := mapDelete s.issuedBySession sessionId })
      else if age < SESSION_COOLDOWN_MS then (some entry.code, s)
      else (none, s)

/-- `generateUniquePromoCode`: up to 20 draws from the `crypto.randomInt`
stream (`cands`), returning the first value not already present in
`issuedCodes`; `none` models the `throw` after 20 failed attempts. -/
def generateUniquePromoCode (issuedCodes : JMap CodeEntry) (cands : List String) :
    Option String :=
  (cands.take 20).find? (fun c => (mapGet issuedCodes c).isNone)

/-- The request body after JSON parsing: `{ result, eventId? }`. -/
structure ResultRequest where
  result : String
  eventId : Option String
deriving DecidableEq, Repr

/-- `RESULT_SCHEMA.safeParse` succeeds: `result` is one of the three
enum values and `eventId`, if present, has 6 to 64 characters. -/
def validPayload (r : ResultRequest) : Bool :=
  (r.result = "win" ∨ r.result = "loss" ∨ r.result = "draw") &&
  (match r.eventId with
   | none => true
   | some e => 6 ≤ e.length && e.length ≤ 64)

/-- What the handler sends back. -/
inductive ApiResponse where
  | ok (payload : ResponsePayload) : ApiResponse
  | badRequest : ApiResponse
  | serverError : ApiResponse
deriving DecidableEq, Repr

/-- One handler invocation: the stores after the call, the HTTP response,
and the Telegram message queued by `queueTelegramMessage` (if any). -/
structure PostResult where
  state : ServerState
  response : ApiResponse
  notification : Option String
deriving DecidableEq, Repr

/-- The win notification text (code interpolated). -/
def winMessage (code : String) : String := "Победа! Промокод выдан:" ++ code

/-- The fixed loss notification text. -/
def lossMessage : String := "проигрыш"

/-- The idempotency lookup: `processedEvents.get(eventId)` when an
`eventId` was supplied. -/
def cacheHit (s : ServerState) (eventId : Option String) : Option EventEntry :=
  match eventId with
  | some e => mapGet s.processedEvents e
  | none => none

/-- `if (eventId) processedEvents.set(eventId, { createdAt: Date.now(),
response })`. -/
def recordEvent (eventId : Option String) (now : Nat) (payload : ResponsePayload)
    (s : ServerState) : ServerState :=
  match eventId with
  | some e => { s with processedEvents := mapSet s.processedEvents e ⟨now, payload⟩ }
  | none => s

/-- The `result === 'win'` branch of the handler: reuse the session's
cooldown code, or mint a fresh one and record it in both indices.  The
`none` second component models the `generateUniquePromoCode` throw, which
aborts before any index is written. -/
def winBranch (s : ServerState) (sid : String) (now : Nat) (cands : List String) :
    ServerState × Option (ResponsePayload × Option String) :=
  match getSessionPromo now s sid with
  | (some code, s') => (s', some (⟨"ok", some code⟩, none))
  | (none, s') =>
      match generateUniquePromoCode s'.issuedCodes cands with
      | none => (s', none)
      | some code =>
          ({ s' with
              issuedCodes := mapSet s'.issuedCodes code ⟨now, sid, false⟩,
              issuedBySession := mapSet s'.issuedBySession sid ⟨code, now⟩ },
           some (⟨"ok", some code⟩, some (winMessage code)))

/-- `app.post('/api/result')`: validate, prune, consult the idempotency
cache, run the result branch, record the event, respond, queue the
notification. -/
def postResult (s : ServerState) (req : ResultRequest) (sid : String) (now : Nat)
    (cands : List String) : PostResult :=
  if validPayload req = true then
    let s₁ := pruneExpired now s
    match cacheHit s₁ req.eventId with
    | some cached => ⟨s₁, ApiResponse.ok cached.response, none⟩
    | none =>
        if req.result = "win" then
          match winBranch s₁ sid now cands with
          | (s₂, none) => ⟨s₂, ApiResponse.serverError, none⟩
          | (s₂, some (payload, msg)) =>
              ⟨recordEvent req.eventId now payload s₂, ApiResponse.ok payload, msg⟩
        else if req.result = "loss" then
          ⟨recordEvent req.eventId now ⟨"ok", none⟩ s₁, ApiResponse.ok ⟨"ok", none⟩,
           some lossMessage⟩
        else
          ⟨recordEvent req.eventId now ⟨"ok", none⟩ s₁, ApiResponse.ok ⟨"ok", none⟩, none⟩
  else ⟨s, ApiResponse.badRequest, none⟩

/-- Keys of a JS `Map` are pairwise distinct; the association lists that
model reachable stores satisfy this. -/
def keysNodup {α} (m : JMap α) : Prop := (m.map Prod.fst).Nodup

/-! ### Concrete stores used by witnesses and counterexamples -/

/-- The stores at process start. -/
def stateEmpty : ServerState := ⟨[], [], []⟩

/-- A store holding a fresh ledger entry for session `alice` and an
unrelated cached event response carrying a different code. -/
def stateA : ServerState :=
  ⟨[("alice", ⟨"11111", 0⟩)],
   [("11111", ⟨0, "alice", false⟩)],
   [("abcdef", ⟨0, ⟨"ok", some "22222"⟩⟩)]⟩

/-- The store produced by a first `win` report from `alice` with event id
`abcdef` at time 5 minting code `12345`. -/
def stateB : ServerState :=
  ⟨[("alice", ⟨"12345", 5⟩)],
   [("12345", ⟨5, "alice", false⟩)],
   [("abcdef", ⟨5, ⟨"ok", some "12345"⟩⟩)]⟩

end Promo

namespace TTT

/-! ## Basic board lemmas -/

lemma cellAt_set_self {b : Board} {i : Nat} (h : i < b.length) (v : Cell) :
    cellAt (b.set i v) i = v := by
  simp [cellAt, List.getD_eq_getElem?_getD, List.getElem?_set_self h]

lemma cellAt_set_ne {b : Board} {i j : Nat} (h : i ≠ j) (v : Cell) :
    cellAt (b.set i v) j = cellAt b j := by
  simp [cellAt, List.getD_eq_getElem?_getD, List.getElem?_set_ne h]

lemma set_none_id : ∀ (b : Board) (i : Nat), cellAt b i = none → b.set i none = b
  | [], _, _ => rfl
  | c :: t, 0, h => by
      simp only [cellAt, List.getD_cons_zero] at h
      simp [h]
  | c :: t, i + 1, h => by
      have ih := set_none_id t i (by simpa [cellAt, List.getD_cons_succ] using h)
      simp [List.set, ih]

lemma countEmpty_le_length (b : Board) : countEmpty b ≤ b.length :=
  List.countP_le_length _

lemma countEmpty_set_some : ∀ (b : Board) (i : Nat) (m : Mark), i < b.length →
    cellAt b i = none → countEmpty (b.set i (some m)) + 1 = countEmpty b
  | [], i, _, h, _ => absurd h (by simp)
  | c :: t, 0, m, _, h => by
      simp only [cellAt, List.getD_cons_zero] at h
      subst h
      simp [countEmpty, List.countP_cons]
  | c :: t, i + 1, m, h, hc => by
      have ih := countEmpty_set_some t i m (by simpa using h)
        (by simpa [cellAt, List.getD_cons_succ] using hc)
      simp only [countEmpty, List.set, List.countP_cons] at ih ⊢
      omega

lemma mem_emptyIdx {b : Board} {i : Nat} :
    i ∈ emptyIdx b ↔ i < b.length ∧ cellAt b i = none := by
  simp [emptyIdx, List.mem_filter, List.mem_range]

lemma all_isSome_iff {b : Board} :
    b.all (fun v => v.isSome) = true ↔ ∀ x ∈ b, x ≠ none := by
  simp [List.all_eq_true, Option.isSome_iff_ne_none]

lemma countEmpty_eq_zero_iff {b : Board} : countEmpty b = 0 ↔ ∀ x ∈ b, x ≠ none := by
  simp [countEmpty, List.countP_eq_zero]

lemma forall_mem_iff_cellAt {b : Board} :
    (∀ x ∈ b, x ≠ none) ↔ ∀ i, i < b.length → cellAt b i ≠ none := by
  constructor
  · intro h i hi
    have hx : b[i] ∈ b := List.getElem_mem hi
    have : cellAt b i = b[i] := by
      simp [cellAt, List.getD_eq_getElem?_getD, List.getElem?_eq_getElem hi]
    rw [this]
    exact h _ hx
  · intro h x hx
    obtain ⟨i, hi, rfl⟩ := List.mem_iff_getElem.mp hx
    have : cellAt b i = b[i] := by
      simp [cellAt, List.getD_eq_getElem?_getD, List.getElem?_eq_getElem hi]
    rw [← this]
    exact h i hi

lemma emptyIdx_eq_nil_iff {b : Board} : emptyIdx b = [] ↔ ∀ x ∈ b, x ≠ none := by
  rw [forall_mem_iff_cellAt]
  constructor
  · intro hnil i hi hc
    have : i ∈ emptyIdx b := mem_emptyIdx.mpr ⟨hi, hc⟩
    rw [hnil] at this
    cases this
  · intro h
    cases he : emptyIdx b with
    | nil => rfl
    | cons j t =>
        have hj : j ∈ emptyIdx b := by rw [he]; exact List.mem_cons_self _ _
        obtain ⟨hlt, hc⟩ := mem_emptyIdx.mp hj
        exact absurd hc (h j hlt)

lemma evaluateBoard_ne_none_of_full {b : Board}
    (h : b.all (fun v => v.isSome) = true) : evaluateBoard b ≠ none := by
  unfold evaluateBoard
  split
  · simp
  · simp [h]

lemma emptyIdx_ne_nil_of_eval_none {b : Board} (h : evaluateBoard b = none) :
    emptyIdx b ≠ [] := by
  intro hnil
  exact evaluateBoard_ne_none_of_full
    (all_isSome_iff.mpr (emptyIdx_eq_nil_iff.mp hnil)) h

lemma countEmpty_pos_of_eval_none {b : Board} (h : evaluateBoard b = none) :
    1 ≤ countEmpty b := by
  rcases Nat.eq_zero_or_pos (countEmpty b) with h0 | h1
  · exact absurd h
      (evaluateBoard_ne_none_of_full (all_isSome_iff.mpr (countEmpty_eq_zero_iff.mp h0)))
  · exact h1

/-! ## The evaluator returns the first winning line (C1 machinery) -/

lemma findSome?_eq_some_iff {α β : Type} {f : α → Option β} :
    ∀ {l : List α} {y : β},
      l.findSome? f = some y ↔
        ∃ l₁ a l₂, l = l₁ ++ a :: l₂ ∧ f a = some y ∧ ∀ x ∈ l₁, f x = none := by
  intro l y
  induction l with
  | nil =>
      simp only [List.findSome?_nil]
      constructor
      · intro h; cases h
      · rintro ⟨l₁, a, l₂, hsplit, -, -⟩
        exact absurd hsplit (by simp)
  | cons a t ih =>
      rw [List.findSome?_cons]
      cases hfa : f a with
      | some z =>
          constructor
          · intro h
            injection h with h
            exact ⟨[], a, t, by simp, by rw [hfa, h], by simp⟩
          · rintro ⟨l₁, a', l₂, hsplit, hb, hpre⟩
            cases l₁ with
            | nil =>
                simp only [List.nil_append, List.cons.injEq] at hsplit
                obtain ⟨rfl, rfl⟩ := hsplit
                rw [hfa] at hb
                exact hb
            | cons x l₁' =>
                simp only [List.cons_append, List.cons.injEq] at hsplit
                obtain ⟨rfl, -⟩ := hsplit
                have := hpre a (by simp)
                rw [hfa] at this
                cases this
      | none =>
          rw [ih]
          constructor
          · rintro ⟨l₁, a', l₂, rfl, hb, hpre⟩
            refine ⟨a :: l₁, a', l₂, rfl, hb, ?_⟩
            intro x hx
            rcases List.mem_cons.mp hx with rfl | hx
            · exact hfa
            · exact hpre x hx
          · rintro ⟨l₁, a', l₂, hsplit, hb, hpre⟩
            cases l₁ with
            | nil =>
                simp only [List.nil_append, List.cons.injEq] at hsplit
                obtain ⟨rfl, rfl⟩ := hsplit
                rw [hfa] at hb
                cases hb
            | cons x l₁' =>
                simp only [List.cons_append, List.cons.injEq] at hsplit
                obtain ⟨rfl, hsplit'⟩ := hsplit
                exact ⟨l₁', a', l₂, hsplit', hb, fun z hz => hpre z (by simp [hz])⟩

lemma comboWin_eq_some_iff {b : Board} {c : Nat × Nat × Nat} {m : Mark} :
    comboWin b c = some m ↔ lineWins b c m := by
  simp only [comboWin, lineWins]
  cases h : cellAt b c.1 with
  | none => simp [h]
  | some m' =>
      simp only [h]
      by_cases h2 : cellAt b c.2.1 = some m' ∧ cellAt b c.2.2 = some m'
      · rw [if_pos h2]
        constructor
        · intro hw
          injection hw with hw
          subst hw
          exact ⟨rfl, h2.1, h2.2⟩
        · rintro ⟨h1, -, -⟩
          exact h1
      · rw [if_neg h2]
        constructor
        · intro hw; cases hw
        · rintro ⟨h1, hb, hc⟩
          injection h1 with h1
          subst h1
          exact absurd ⟨hb, hc⟩ h2

lemma comboWin_eq_none_iff {b : Board} {c : Nat × Nat × Nat} :
    comboWin b c = none ↔ ∀ m, ¬ lineWins b c m := by
  constructor
  · intro h m hl
    rw [comboWin_eq_some_iff.mpr hl] at h
    cases h
  · intro h
    cases hcw : comboWin b c with
    | none => rfl
    | some m => exact absurd (comboWin_eq_some_iff.mp hcw) (h m)

/-- C1: `evaluateBoard` checks the 8 fixed winning lines in the fixed
source order (3 rows, 3 columns, 2 diagonals) and returns `Win(mark,
line)` for the first line whose three cells share a non-empty mark — the
win output is `some ⟨some m, some c, false⟩` exactly when `c` splits
`winningCombos` with no earlier winning line and `c` is won by `m`; when
no line wins, a fully filled board yields `Draw` (`⟨none, none, true⟩`)
and a board with an empty cell yields `Ongoing` (`none`). -/
theorem claim_C1 (b : Board) :
    (∀ m c, evaluateBoard b = some ⟨some m, some c, false⟩ ↔
        ∃ l₁ l₂, winningCombos = l₁ ++ c :: l₂ ∧ lineWins b c m ∧
          ∀ c' ∈ l₁, ∀ m', ¬ lineWins b c' m') ∧
    ((∀ c ∈ winningCombos, ∀ m, ¬ lineWins b c m) →
      ((∀ x ∈ b, x ≠ none) → evaluateBoard b = some ⟨none, none, true⟩) ∧
      ((∃ x ∈ b, x = none) → evaluateBoard b = none)) := by
  constructor
  · intro m c
    constructor
    · intro h
      unfold evaluateBoard at h
      cases hf : winningCombos.findSome?
          (fun c => (comboWin b c).map (fun m => Outcome.mk (some m) (some c) false)) with
      | some o =>
          simp only [hf] at h
          injection h with h
          subst h
          obtain ⟨l₁, a, l₂, hsplit, hfa, hpre⟩ := findSome?_eq_some_iff.mp hf
          obtain ⟨m₀, hcw, heq⟩ := Option.map_eq_some'.mp hfa
          obtain ⟨hm, hc⟩ : m₀ = m ∧ a = c := by
            injection heq with h1 h2 h3
            injection h1 with h1
            injection h2 with h2
            exact ⟨h1, h2⟩
          subst hm; subst hc
          refine ⟨l₁, l₂, hsplit, comboWin_eq_some_iff.mp hcw, ?_⟩
          intro c' hc' m'
          have hn : (comboWin b c').map (fun m => Outcome.mk (some m) (some c') false) = none :=
            hpre c' hc'
          rw [Option.map_eq_none'] at hn
          exact comboWin_eq_none_iff.mp hn m'
      | none =>
          simp only [hf] at h
          by_cases hall : b.all (fun v => v.isSome) = true
          · rw [if_pos hall] at h
            injection h with h
            injection h with h1 h2 h3
            cases h1
          · rw [if_neg hall] at h
            cases h
    · rintro ⟨l₁, l₂, hsplit, hw, hpre⟩
      have hf : winningCombos.findSome?
          (fun c => (comboWin b c).map (fun m => Outcome.mk (some m) (some c) false)) =
            some ⟨some m, some c, false⟩ := by
        refine findSome?_eq_some_iff.mpr ⟨l₁, c, l₂, hsplit, ?_, ?_⟩
        · rw [comboWin_eq_some_iff.mpr hw]
          rfl
        · intro x hx
          rw [Option.map_eq_none']
          exact comboWin_eq_none_iff.mpr (hpre x hx)
      unfold evaluateBoard
      simp only [hf]
  · intro hnw
    have hf : winningCombos.findSome?
        (fun c => (comboWin b c).map (fun m => Outcome.mk (some m) (some c) false)) = none := by
      rw [List.findSome?_eq_none_iff]
      intro x hx
      rw [Option.map_eq_none']
      exact comboWin_eq_none_iff.mpr (hnw x hx)
    constructor
    · intro hfull
      unfold evaluateBoard
      simp only [hf]
      rw [if_pos (all_isSome_iff.mpr hfull)]
    · rintro ⟨x, hx, hxn⟩
      unfold evaluateBoard
      simp only [hf]
      rw [if_neg ?_]
      intro hall
      exact absurd hxn (all_isSome_iff.mp hall x hx)

/-- Witness for C1 at the concrete drawn board of the repository's test
suite: no line wins, every cell is filled, and `evaluateBoard` returns the
`Draw` outcome. -/
theorem claim_C1_witness :
    ((∀ c ∈ winningCombos, ∀ m, ¬ lineWins boardDraw c m) ∧
      (∀ x ∈ boardDraw, x ≠ none)) ∧
    evaluateBoard boardDraw = some ⟨none, none, true⟩ :=
  ⟨⟨by decide, by decide⟩, ((claim_C1 boardDraw).2 (by decide)).1 (by decide)⟩

/-! ## Heuristic scorer and minimax values (C6 machinery) -/

lemma lineScore_eq_spec : ∀ v₁ v₂ v₃ : Cell,
    lineScore [v₁, v₂, v₃] = specLineScore [v₁, v₂, v₃] := by decide

lemma foldl_add_eq_sum {α : Type} :
    ∀ (l : List α) (f : α → Int) (a : Int),
      l.foldl (fun s c => s + f c) a = a + (l.map f).sum := by
  intro l
  induction l with
  | nil => intro f a; simp
  | cons x t ih =>
      intro f a
      simp only [List.foldl_cons, List.map_cons, List.sum_cons, ih]
      ring

lemma scoreBoard_eq_sum (b : Board) :
    scoreBoard b = (winningCombos.map (fun c => specLineScore (lineVals b c))).sum := by
  unfold scoreBoard
  rw [foldl_add_eq_sum]
  rw [Int.zero_add]
  congr 1
  apply List.map_congr_left
  intro c _
  exact lineScore_eq_spec _ _ _

lemma foldl_fn_congr {α β : Type} :
    ∀ (l : List α) (f g : β → α → β) (a : β),
      (∀ x ∈ l, ∀ acc, f acc x = g acc x) → l.foldl f a = l.foldl g a := by
  intro l
  induction l with
  | nil => intro f g a _; rfl
  | cons x t ih =>
      intro f g a h
      simp only [List.foldl_cons]
      rw [h x (by simp)]
      exact ih f g _ (fun y hy acc => h y (by simp [hy]) acc)

lemma minimaxFuel_terminal {b : Board} {o : Outcome} (h : evaluateBoard b = some o)
    (fuel d : Nat) (im : Bool) (cap : Option Nat) :
    minimaxFuel fuel b d im cap = terminalValue o d := by
  cases fuel <;> simp only [minimaxFuel, h]

lemma minimaxFuel_cap {b : Board} (h : evaluateBoard b = none) {cap : Option Nat} {d : Nat}
    (hc : capReached cap d = true) (fuel : Nat) (im : Bool) :
    minimaxFuel fuel b d im cap = JNum.fin (scoreBoard b) := by
  cases fuel <;> simp only [minimaxFuel, h, hc, if_true]

lemma countEmpty_child {b : Board} {i : Nat} (hi : i ∈ emptyIdx b) (m : Mark) :
    countEmpty (b.set i (some m)) + 1 = countEmpty b := by
  obtain ⟨hlt, hc⟩ := mem_emptyIdx.mp hi
  exact countEmpty_set_some b i m hlt hc

lemma minimaxFuel_congr :
    ∀ (fuel₁ : Nat) (fuel₂ : Nat) (b : Board) (d : Nat) (im : Bool) (cap : Option Nat),
      countEmpty b ≤ fuel₁ → countEmpty b ≤ fuel₂ →
      minimaxFuel fuel₁ b d im cap = minimaxFuel fuel₂ b d im cap := by
  intro fuel₁
  induction fuel₁ with
  | zero =>
      intro fuel₂ b d im cap h₁ _
      cases heval : evaluateBoard b with
      | some o => rw [minimaxFuel_terminal heval, minimaxFuel_terminal heval]
      | none =>
          have := countEmpty_pos_of_eval_none heval
          omega
  | succ fuel₁' ih =>
      intro fuel₂ b d im cap h₁ h₂
      cases heval : evaluateBoard b with
      | some o => rw [minimaxFuel_terminal heval, minimaxFuel_terminal heval]
      | none =>
          cases hcap : capReached cap d with
          | true => rw [minimaxFuel_cap heval hcap, minimaxFuel_cap heval hcap]
          | false =>
              have hpos := countEmpty_pos_of_eval_none heval
              cases fuel₂ with
              | zero => omega
              | succ fuel₂' =>
                  show minimaxFuel (fuel₁' + 1) b d im cap = minimaxFuel (fuel₂' + 1) b d im cap
                  simp only [minimaxFuel, heval, hcap, Bool.false_eq_true, if_false]
                  cases im with
                  | true =>
                      simp only [if_true]
                      apply foldl_fn_congr
                      intro i hi acc
                      have hce := countEmpty_child hi Mark.O
                      rw [ih fuel₂' _ _ _ _ (by omega) (by omega)]
                  | false =>
                      simp only [Bool.false_eq_true, if_false]
                      apply foldl_fn_congr
                      intro i hi acc
                      have hce := countEmpty_child hi Mark.X
                      rw [ih fuel₂' _ _ _ _ (by omega) (by omega)]

lemma length_pos_of_eval_none {b : Board} (h : evaluateBoard b = none) :
    1 ≤ b.length :=
  le_trans (countEmpty_pos_of_eval_none h) (countEmpty_le_length b)

lemma minimax_recursion {b : Board} {d : Nat} {cap : Option Nat}
    (h : evaluateBoard b = none) (hcap : capReached cap d = false) :
    minimax b d true cap =
      (emptyIdx b).foldl
        (fun best i => jmax best (minimax (b.set i (some Mark.O)) (d + 1) false cap))
        JNum.negInf ∧
    minimax b d false cap =
      (emptyIdx b).foldl
        (fun best i => jmin best (minimax (b.set i (some Mark.X)) (d + 1) true cap))
        JNum.posInf := by
  have hlen := length_pos_of_eval_none h
  obtain ⟨n, hn⟩ : ∃ n, b.length = n + 1 := ⟨b.length - 1, by omega⟩
  constructor
  · show minimaxFuel b.length b d true cap = _
    rw [hn]
    simp only [minimaxFuel, h, hcap, Bool.false_eq_true, if_false, if_true]
    apply foldl_fn_congr
    intro i hi acc
    have hce := countEmpty_child hi Mark.O
    have hcel := countEmpty_le_length b
    rw [show minimax (b.set i (some Mark.O)) (d + 1) false cap =
          minimaxFuel (b.set i (some Mark.O)).length (b.set i (some Mark.O)) (d + 1) false cap
        from rfl]
    rw [minimaxFuel_congr n ((b.set i (some Mark.O)).length) _ _ _ _
      (by omega) (le_trans (countEmpty_le_length _) (le_refl _))]
  · show minimaxFuel b.length b d false cap = _
    rw [hn]
    simp only [minimaxFuel, h, hcap, Bool.false_eq_true, if_false]
    apply foldl_fn_congr
    intro i hi acc
    have hce := countEmpty_child hi Mark.X
    have hcel := countEmpty_le_length b
    rw [show minimax (b.set i (some Mark.X)) (d + 1) true cap =
          minimaxFuel (b.set i (some Mark.X)).length (b.set i (some Mark.X)) (d + 1) true cap
        from rfl]
    rw [minimaxFuel_congr n ((b.set i (some Mark.X)).length) _ _ _ _
      (by omega) (le_trans (countEmpty_le_length _) (le_refl _))]

/-! ## Order facts about JS numbers -/

lemma jlt_irrefl (a : JNum) : jlt a a = false := by
  cases a with
  | negInf => rfl
  | posInf => rfl
  | fin n => simp [jlt]

lemma jlt_trans {a b c : JNum} : jlt a b = true → jlt b c = true → jlt a c = true := by
  cases a <;> cases b <;> cases c <;> simp [jlt] <;> omega

lemma jlt_false_trans {a b c : JNum} :
    jlt a b = false → jlt b c = false → jlt a c = false := by
  cases a <;> cases b <;> cases c <;> simp [jlt] <;> omega

lemma jlt_le_lt {a b c : JNum} : jlt a b = false → jlt a c = true → jlt b c = true := by
  cases a <;> cases b <;> cases c <;> simp [jlt] <;> omega

lemma jmax_lt_iff {a b c : JNum} :
    jlt (jmax a b) c = true ↔ (jlt a c = true ∧ jlt b c = true) := by
  unfold jmax
  by_cases h : jlt a b = true
  · rw [if_pos h]
    constructor
    · intro hb
      exact ⟨jlt_trans h hb, hb⟩
    · exact fun hp => hp.2
  · have h' : jlt a b = false := by simpa using h
    rw [if_neg h]
    constructor
    · intro ha
      exact ⟨ha, jlt_le_lt h' ha⟩
    · exact fun hp => hp.1

lemma jmin_lt_iff {a b c : JNum} :
    jlt (jmin a b) c = true ↔ (jlt a c = true ∨ jlt b c = true) := by
  unfold jmin
  by_cases h : jlt b a = true
  · rw [if_pos h]
    constructor
    · exact fun hb => Or.inr hb
    · rintro (ha | hb)
      · exact jlt_trans h ha
      · exact hb
  · have h' : jlt b a = false := by simpa using h
    rw [if_neg h]
    constructor
    · exact fun ha => Or.inl ha
    · rintro (ha | hb)
      · exact ha
      · exact jlt_le_lt h' hb

lemma jmax_fin_fin (a b : Int) : ∃ n, jmax (JNum.fin a) (JNum.fin b) = JNum.fin n := by
  unfold jmax
  by_cases h : jlt (JNum.fin a) (JNum.fin b) = true
  · rw [if_pos h]; exact ⟨b, rfl⟩
  · rw [if_neg h]; exact ⟨a, rfl⟩

lemma jmin_fin_fin (a b : Int) : ∃ n, jmin (JNum.fin a) (JNum.fin b) = JNum.fin n := by
  unfold jmin
  by_cases h : jlt (JNum.fin b) (JNum.fin a) = true
  · rw [if_pos h]; exact ⟨b, rfl⟩
  · rw [if_neg h]; exact ⟨a, rfl⟩

/-! ## Fold characterizations of the `forEach` loops -/

lemma foldl_jmax_lt {α : Type} (s : α → JNum) (c : JNum) :
    ∀ (L : List α) (a : JNum),
      jlt (L.foldl (fun best i => jmax best (s i)) a) c = true ↔
        (jlt a c = true ∧ ∀ i ∈ L, jlt (s i) c = true) := by
  intro L
  induction L with
  | nil => intro a; simp
  | cons x t ih =>
      intro a
      simp only [List.foldl_cons]
      rw [ih, jmax_lt_iff, List.forall_mem_cons]
      tauto

lemma foldl_jmin_lt {α : Type} (s : α → JNum) (c : JNum) :
    ∀ (L : List α) (a : JNum),
      jlt (L.foldl (fun best i => jmin best (s i)) a) c = true ↔
        (jlt a c = true ∨ ∃ i ∈ L, jlt (s i) c = true) := by
  intro L
  induction L with
  | nil => intro a; simp
  | cons x t ih =>
      intro a
      simp only [List.foldl_cons]
      rw [ih, jmin_lt_iff]
      constructor
      · rintro ((ha | hx) | ⟨i, hi, hs⟩)
        · exact Or.inl ha
        · exact Or.inr ⟨x, by simp, hx⟩
        · exact Or.inr ⟨i, by simp [hi], hs⟩
      · rintro (ha | ⟨i, hi, hs⟩)
        · exact Or.inl (Or.inl ha)
        · rcases List.mem_cons.mp hi with rfl | hi
          · exact Or.inl (Or.inr hs)
          · exact Or.inr ⟨i, hi, hs⟩

lemma foldl_jmax_fin {α : Type} (s : α → JNum) :
    ∀ (L : List α) (a : Int),
      (∀ i ∈ L, ∃ n, s i = JNum.fin n) →
      ∃ n, L.foldl (fun best i => jmax best (s i)) (JNum.fin a) = JNum.fin n := by
  intro L
  induction L with
  | nil => intro a _; exact ⟨a, rfl⟩
  | cons x t ih =>
      intro a h
      obtain ⟨k, hk⟩ := h x (by simp)
      simp only [List.foldl_cons, hk]
      obtain ⟨n, hn⟩ := jmax_fin_fin a k
      rw [hn]
      exact ih n (fun i hi => h i (by simp [hi]))

lemma foldl_jmax_fin_negInf {α : Type} (s : α → JNum) {L : List α} (hL : L ≠ [])
    (h : ∀ i ∈ L, ∃ n, s i = JNum.fin n) :
    ∃ n, L.foldl (fun best i => jmax best (s i)) JNum.negInf = JNum.fin n := by
  cases L with
  | nil => exact absurd rfl hL
  | cons x t =>
      obtain ⟨k, hk⟩ := h x (by simp)
      simp only [List.foldl_cons, hk]
      rw [show jmax JNum.negInf (JNum.fin k) = JNum.fin k from rfl]
      exact foldl_jmax_fin s t k (fun i hi => h i (by simp [hi]))

lemma foldl_jmin_fin {α : Type} (s : α → JNum) :
    ∀ (L : List α) (a : Int),
      (∀ i ∈ L, ∃ n, s i = JNum.fin n) →
      ∃ n, L.foldl (fun best i => jmin best (s i)) (JNum.fin a) = JNum.fin n := by
  intro L
  induction L with
  | nil => intro a _; exact ⟨a, rfl⟩
  | cons x t ih =>
      intro a h
      obtain ⟨k, hk⟩ := h x (by simp)
      simp only [List.foldl_cons, hk]
      obtain ⟨n, hn⟩ := jmin_fin_fin a k
      rw [hn]
      exact ih n (fun i hi => h i (by simp [hi]))

lemma foldl_jmin_fin_posInf {α : Type} (s : α → JNum) {L : List α} (hL : L ≠ [])
    (h : ∀ i ∈ L, ∃ n, s i = JNum.fin n) :
    ∃ n, L.foldl (fun best i => jmin best (s i)) JNum.posInf = JNum.fin n := by
  cases L with
  | nil => exact absurd rfl hL
  | cons x t =>
      obtain ⟨k, hk⟩ := h x (by simp)
      simp only [List.foldl_cons, hk]
      rw [show jmin JNum.posInf (JNum.fin k) = JNum.fin k from rfl]
      exact foldl_jmin_fin s t k (fun i hi => h i (by simp [hi]))

lemma minimaxFuel_fin :
    ∀ (fuel : Nat) (b : Board) (d : Nat) (im : Bool) (cap : Option Nat),
      countEmpty b ≤ fuel → ∃ n, minimaxFuel fuel b d im cap = JNum.fin n := by
  intro fuel
  induction fuel with
  | zero =>
      intro b d im cap _
      cases heval : evaluateBoard b with
      | some o =>
          rw [minimaxFuel_terminal heval]
          unfold terminalValue
          split
          · exact ⟨0, rfl⟩
          · split
            · exact ⟨10 - (d : Int), rfl⟩
            · exact ⟨(d : Int) - 10, rfl⟩
      | none =>
          simp only [minimaxFuel, heval]
          split
          · exact ⟨scoreBoard b, rfl⟩
          · exact ⟨0, rfl⟩
  | succ fuel' ih =>
      intro b d im cap hce
      cases heval : evaluateBoard b with
      | some o =>
          rw [minimaxFuel_terminal heval]
          unfold terminalValue
          split
          · exact ⟨0, rfl⟩
          · split
            · exact ⟨10 - (d : Int), rfl⟩
            · exact ⟨(d : Int) - 10, rfl⟩
      | none =>
          cases hcap : capReached cap d with
          | true => exact ⟨scoreBoard b, minimaxFuel_cap heval hcap _ _⟩
          | false =>
              have hnil := emptyIdx_ne_nil_of_eval_none heval
              simp only [minimaxFuel, heval, hcap, Bool.false_eq_true, if_false]
              cases im with
              | true =>
                  simp only [if_true]
                  refine foldl_jmax_fin_negInf _ hnil ?_
                  intro i hi
                  have hc := countEmpty_child hi Mark.O
                  exact ih _ _ _ _ (by omega)
              | false =>
                  simp only [Bool.false_eq_true, if_false]
                  refine foldl_jmin_fin_posInf _ hnil ?_
                  intro i hi
                  have hc := countEmpty_child hi Mark.X
                  exact ih _ _ _ _ (by omega)

lemma minimax_fin {b : Board} {i : Nat} (hi : i ∈ emptyIdx b) (m : Mark)
    (d : Nat) (im : Bool) (cap : Option Nat) :
    ∃ n, minimax (b.set i (some m)) d im cap = JNum.fin n := by
  apply minimaxFuel_fin
  rw [List.length_set]
  have := countEmpty_child hi m
  have := countEmpty_le_length b
  omega

/-! ## `getBestMove` keeps the first strict maximum (C5 machinery) -/

lemma foldl_guard_to_filter {α β : Type} (p : α → Prop) [DecidablePred p] (f : β → α → β) :
    ∀ (L : List α) (acc : β),
      L.foldl (fun acc i => if p i then f acc i else acc) acc =
        (L.filter (fun a => decide (p a))).foldl f acc := by
  intro L
  induction L with
  | nil => intro acc; rfl
  | cons x t ih =>
      intro acc
      by_cases hp : p x
      · simp only [List.foldl_cons, List.filter_cons, if_pos hp, decide_eq_true hp]
        exact ih (f acc x)
      · simp only [List.foldl_cons, List.filter_cons, if_neg hp,
          decide_eq_false hp, Bool.false_eq_true, if_false]
        exact ih acc

lemma bestFold_stay (s : Nat → JNum) :
    ∀ (L : List Nat) (a : JNum) (mo : Option Nat),
      (∀ i ∈ L, jlt a (s i) = false) → L.foldl (bestStep s) (a, mo) = (a, mo) := by
  intro L
  induction L with
  | nil => intro a mo _; rfl
  | cons x t ih =>
      intro a mo h
      have hx : jlt a (s x) = false := h x (by simp)
      simp only [List.foldl_cons, bestStep, hx, Bool.false_eq_true, if_false]
      exact ih a mo (fun i hi => h i (by simp [hi]))

lemma bestFold_found (s : Nat → JNum) :
    ∀ (L : List Nat) (a : JNum) (mo : Option Nat),
      (∃ i ∈ L, jlt a (s i) = true) →
      ∃ L₁ m L₂, L = L₁ ++ m :: L₂ ∧
        L.foldl (bestStep s) (a, mo) = (s m, some m) ∧
        jlt a (s m) = true ∧
        (∀ j ∈ L₁, jlt (s j) (s m) = true) ∧
        (∀ j ∈ L₂, jlt (s m) (s j) = false) := by
  intro L
  induction L with
  | nil => rintro a mo ⟨i, hi, -⟩; cases hi
  | cons x t ih =>
      intro a mo hex
      by_cases hx : jlt a (s x) = true
      · simp only [List.foldl_cons, bestStep, hx, if_true]
        by_cases ht : ∃ i ∈ t, jlt (s x) (s i) = true
        · obtain ⟨L₁, m, L₂, hsplit, hfold, hlt, hpre, hpost⟩ := ih (s x) (some x) ht
          refine ⟨x :: L₁, m, L₂, by rw [hsplit]; rfl, hfold, jlt_trans hx hlt, ?_, hpost⟩
          intro j hj
          rcases List.mem_cons.mp hj with rfl | hj
          · exact hlt
          · exact hpre j hj
        · push_neg at ht
          have hstay := bestFold_stay s t (s x) (some x)
            (fun i hi => by simpa using ht i hi)
          rw [hstay]
          exact ⟨[], x, t, rfl, rfl, hx, by simp, fun j hj => by simpa using ht j hj⟩
      · have hx' : jlt a (s x) = false := by simpa using hx
        simp only [List.foldl_cons, bestStep, hx', Bool.false_eq_true, if_false]
        have hex' : ∃ i ∈ t, jlt a (s i) = true := by
          obtain ⟨i, hi, his⟩ := hex
          rcases List.mem_cons.mp hi with rfl | hi
          · rw [his] at hx'; cases hx'
          · exact ⟨i, hi, his⟩
        obtain ⟨L₁, m, L₂, hsplit, hfold, hlt, hpre, hpost⟩ := ih a mo hex'
        refine ⟨x :: L₁, m, L₂, by rw [hsplit]; rfl, hfold, hlt, ?_, hpost⟩
        intro j hj
        rcases List.mem_cons.mp hj with rfl | hj
        · exact jlt_le_lt hx' hlt
        · exact hpre j hj

lemma emptyIdx_pairwise (b : Board) : (emptyIdx b).Pairwise (· < ·) :=
  List.Pairwise.sublist (List.filter_sublist _) (List.pairwise_lt_range _)

lemma getBestMove_eq_bestFold (b : Board) (cap : Option Nat) :
    getBestMove b cap =
      ((emptyIdx b).foldl
        (bestStep (fun i => minimax (b.set i (some Mark.O)) 0 false cap))
        (JNum.negInf, none)).2 := by
  show ((List.range b.length).foldl
      (fun (acc : JNum × Option Nat) i =>
        if cellAt b i = none then
          bestStep (fun i => minimax (b.set i (some Mark.O)) 0 false cap) acc i
        else acc)
      (JNum.negInf, none)).2 = _
  rw [foldl_guard_to_filter (fun i => cellAt b i = none)]
  rfl

lemma getBestMove_spec {b : Board} (cap : Option Nat) (h : emptyIdx b ≠ []) :
    ∃ m, getBestMove b cap = some m ∧ m ∈ emptyIdx b ∧
      (∀ j ∈ emptyIdx b,
        jlt (minimax (b.set m (some Mark.O)) 0 false cap)
            (minimax (b.set j (some Mark.O)) 0 false cap) = false) ∧
      (∀ j ∈ emptyIdx b, j < m →
        jlt (minimax (b.set j (some Mark.O)) 0 false cap)
            (minimax (b.set m (some Mark.O)) 0 false cap) = true) := by
  set s : Nat → JNum := fun i => minimax (b.set i (some Mark.O)) 0 false cap with hs
  have hex : ∃ i ∈ emptyIdx b, jlt JNum.negInf (s i) = true := by
    obtain ⟨x, hx⟩ := List.exists_mem_of_ne_nil _ h
    obtain ⟨n, hn⟩ := minimax_fin hx Mark.O 0 false cap
    refine ⟨x, hx, ?_⟩
    have hn' : s x = JNum.fin n := hn
    rw [hn']
    rfl
  obtain ⟨L₁, m, L₂, hsplit, hfold, -, hpre, hpost⟩ :=
    bestFold_found s (emptyIdx b) JNum.negInf none hex
  have hm : m ∈ emptyIdx b := by rw [hsplit]; simp
  have hpair : (emptyIdx b).Pairwise (· < ·) := emptyIdx_pairwise b
  rw [hsplit] at hpair
  have hmlt : ∀ j ∈ L₂, m < j := by
    have := (List.pairwise_append.mp hpair).2.1
    exact (List.pairwise_cons.mp this).1
  have hL₁lt : ∀ j ∈ L₁, j < m := by
    intro j hj
    have := (List.pairwise_append.mp hpair).2.2
    exact this j hj m (by simp)
  refine ⟨m, ?_, hm, ?_, ?_⟩
  · rw [getBestMove_eq_bestFold, hfold]
  · intro j hj
    rw [hsplit] at hj
    rcases List.mem_append.mp hj with hj | hj
    · -- j strictly before m: its score is strictly below, hence not above
      have := hpre j hj
      cases hlt : jlt (s m) (s j) with
      | false => rfl
      | true =>
          have h1 := jlt_trans this hlt
          have h2 := jlt_irrefl (s j)
          rw [h1] at h2; cases h2
    · rcases List.mem_cons.mp hj with rfl | hj
      · exact jlt_irrefl (s j)
      · exact hpost j hj
  · intro j hj hjm
    rw [hsplit] at hj
    rcases List.mem_append.mp hj with hj | hj
    · exact hpre j hj
    · rcases List.mem_cons.mp hj with rfl | hj
      · omega
      · exact absurd hjm (by have := hmlt j hj; omega)

lemma getBestMove_eq_none_of_full {b : Board} (cap : Option Nat)
    (h : emptyIdx b = []) : getBestMove b cap = none := by
  rw [getBestMove_eq_bestFold, h]
  rfl

/-- C6: the heuristic scorer sums, over the 8 fixed lines, the
contributions of the specification's table (`specLineScore`: both sides
present → 0, two computer marks and one empty → +3, one computer mark and
two empties → +1, and `-3`/`-1` symmetrically for the player); minimax
values terminal states as `Draw → 0`, computer win → `10 - depth`, player
win → `depth - 10`; it substitutes the heuristic score when a finite depth
cap is configured and reached before a terminal state, and otherwise (no
cap, or cap not yet reached) recurses over the empty cells. -/
theorem claim_C6 (b : Board) :
    (scoreBoard b = (winningCombos.map (fun c => specLineScore (lineVals b c))).sum) ∧
    (∀ (o : Outcome) (d : Nat) (im : Bool) (cap : Option Nat), evaluateBoard b = some o →
      minimax b d im cap =
        (if o.isDraw then JNum.fin 0
         else if o.winner = some Mark.O then JNum.fin (10 - (d : Int))
         else JNum.fin ((d : Int) - 10))) ∧
    (∀ (d md : Nat) (im : Bool), evaluateBoard b = none → md ≤ d →
      minimax b d im (some md) = JNum.fin (scoreBoard b)) ∧
    (∀ (d : Nat) (cap : Option Nat), evaluateBoard b = none → capReached cap d = false →
      minimax b d true cap =
        (emptyIdx b).foldl
          (fun best i => jmax best (minimax (b.set i (some Mark.O)) (d + 1) false cap))
          JNum.negInf ∧
      minimax b d false cap =
        (emptyIdx b).foldl
          (fun best i => jmin best (minimax (b.set i (some Mark.X)) (d + 1) true cap))
          JNum.posInf) := by
  refine ⟨scoreBoard_eq_sum b, ?_, ?_, ?_⟩
  · intro o d im cap h
    rw [show minimax b d im cap = terminalValue o d from minimaxFuel_terminal h _ _ _ _]
    rfl
  · intro d md im h hle
    exact minimaxFuel_cap h (by simp [capReached]; omega) _ _
  · intro d cap h hcap
    exact minimax_recursion h hcap

/-- Witness for C6 at concrete inputs: the drawn board values to 0 at any
depth, and a capped search on a non-terminal board returns the heuristic
score once the depth cap is reached. -/
theorem claim_C6_witness :
    (evaluateBoard boardDraw = some ⟨none, none, true⟩ ∧
      minimax boardDraw 2 true none = JNum.fin 0) ∧
    (evaluateBoard boardWin2 = none ∧ (3 : Nat) ≤ 3 ∧
      minimax boardWin2 3 false (some 3) = JNum.fin (scoreBoard boardWin2)) := by
  refine ⟨⟨by decide, ?_⟩, by decide, le_refl 3, ?_⟩
  · rw [(claim_C6 boardDraw).2.1 ⟨none, none, true⟩ 2 true none (by decide)]
    rfl
  · exact (claim_C6 boardWin2).2.2.1 3 3 false (by decide) (le_refl 3)

/-- C5: on a board with an empty cell, `getBestMove` returns the lowest
index among the empty cells achieving the strictly greatest minimax score
(every empty cell scores no higher, and every smaller empty index scores
strictly lower); and `getAiMove` returns `none` exactly on boards with no
empty cell, at every difficulty tier (the `choice` bound is what
`Math.floor(Math.random() * available.length)` guarantees). -/
theorem claim_C5 (b : Board) (cap : Option Nat) (diff : Difficulty) (blunder : Bool)
    (choice : Nat) (hchoice : emptyIdx b ≠ [] → choice < (emptyIdx b).length) :
    ((emptyIdx b ≠ []) → ∃ m, getBestMove b cap = some m ∧ m < b.length ∧
      cellAt b m = none ∧
      (∀ j, j < b.length → cellAt b j = none →
        jlt (minimax (b.set m (some Mark.O)) 0 false cap)
            (minimax (b.set j (some Mark.O)) 0 false cap) = false) ∧
      (∀ j, j < b.length → cellAt b j = none → j < m →
        jlt (minimax (b.set j (some Mark.O)) 0 false cap)
            (minimax (b.set m (some Mark.O)) 0 false cap) = true)) ∧
    (getAiMove b diff blunder choice = none ↔ ∀ x ∈ b, x ≠ none) := by
  constructor
  · intro hne
    obtain ⟨m, hgb, hmem, hmax, hfirst⟩ := getBestMove_spec cap hne
    obtain ⟨hmlt, hmc⟩ := mem_emptyIdx.mp hmem
    refine ⟨m, hgb, hmlt, hmc, ?_, ?_⟩
    · intro j hj hjc
      exact hmax j (mem_emptyIdx.mpr ⟨hj, hjc⟩)
    · intro j hj hjc hjm
      exact hfirst j (mem_emptyIdx.mpr ⟨hj, hjc⟩) hjm
  · constructor
    · intro hnone
      by_contra hfull
      have hne : emptyIdx b ≠ [] := fun hnil => hfull (emptyIdx_eq_nil_iff.mp hnil)
      unfold getAiMove at hnone
      by_cases hcase : diff = Difficulty.easy ∧ blunder = true
      · rw [if_pos hcase] at hnone
        have hch := hchoice hne
        have hrand : getRandomMove b choice = (emptyIdx b).get? choice := by
          show (if (emptyIdx b).length = 0 then none else (emptyIdx b).get? choice) = _
          rw [if_neg (by
            intro h0
            exact hne (List.length_eq_zero.mp h0))]
        rw [hrand, List.get?_eq_get hch] at hnone
        cases hnone
      · rw [if_neg hcase] at hnone
        obtain ⟨m, hm, -⟩ := getBestMove_spec (settingsMaxDepth diff) hne
        rw [hm] at hnone
        cases hnone
    · intro hfull
      have hnil : emptyIdx b = [] := emptyIdx_eq_nil_iff.mpr hfull
      unfold getAiMove
      by_cases hcase : diff = Difficulty.easy ∧ blunder = true
      · rw [if_pos hcase]
        show (if (emptyIdx b).length = 0 then none else (emptyIdx b).get? choice) = none
        rw [hnil]
        rfl
      · rw [if_neg hcase]
        exact getBestMove_eq_none_of_full _ hnil

/-- Witness for C5 at a concrete full board: `getAiMove` returns `none`
there, and the `choice` bound holds vacuously. -/
theorem claim_C5_witness :
    (emptyIdx boardFull ≠ [] → (0 : Nat) < (emptyIdx boardFull).length) ∧
    (getAiMove boardFull Difficulty.normal false 0 = none ↔ ∀ x ∈ boardFull, x ≠ none) :=
  ⟨by decide, (claim_C5 boardFull (some 3) Difficulty.normal false 0 (by decide)).2⟩

/-- C7: on `['O','O',null,'X','X',null,null,null,null]` the computer picks
index 2 (completing its win) at every tier whenever Easy's blunder branch
is not taken, and on `['X','X',null,null,'O',null,null,null,null]` it
picks index 2 (blocking the player) under Normal and Hard. -/
theorem claim_C7 :
    (∀ choice, getAiMove boardWin2 Difficulty.easy false choice = some 2) ∧
    (∀ blunder choice, getAiMove boardWin2 Difficulty.normal blunder choice = some 2) ∧
    (∀ blunder choice, getAiMove boardWin2 Difficulty.hard blunder choice = some 2) ∧
    (∀ blunder choice, getAiMove boardBlock2 Difficulty.normal blunder choice = some 2) ∧
    (∀ blunder choice, getAiMove boardBlock2 Difficulty.hard blunder choice = some 2) :=
  ⟨fun _ => rfl, fun _ _ => rfl, fun _ _ => rfl, fun _ _ => rfl, fun _ _ => rfl⟩

/-! ## Hard play never loses (C2 machinery) -/

lemma all_fn_congr {α : Type} :
    ∀ (l : List α) (f g : α → Bool), (∀ x ∈ l, f x = g x) → l.all f = l.all g := by
  intro l
  induction l with
  | nil => intro f g _; rfl
  | cons x t ih =>
      intro f g h
      simp only [List.all_cons, h x (by simp)]
      rw [ih f g (fun y hy => h y (by simp [hy]))]

lemma any_fn_congr {α : Type} :
    ∀ (l : List α) (f g : α → Bool), (∀ x ∈ l, f x = g x) → l.any f = l.any g := by
  intro l
  induction l with
  | nil => intro f g _; rfl
  | cons x t ih =>
      intro f g h
      simp only [List.any_cons, h x (by simp)]
      rw [ih f g (fun y hy => h y (by simp [hy]))]

lemma xForcesWinFuel_terminal {b : Board} {o : Outcome} (h : evaluateBoard b = some o)
    (fuel : Nat) (t : Turn) :
    xForcesWinFuel fuel b t = decide (o.winner = some Mark.X) := by
  cases fuel <;> simp only [xForcesWinFuel, h]

lemma xForcesWinFuel_congr :
    ∀ (fuel₁ fuel₂ : Nat) (b : Board) (t : Turn),
      countEmpty b ≤ fuel₁ → countEmpty b ≤ fuel₂ →
      xForcesWinFuel fuel₁ b t = xForcesWinFuel fuel₂ b t := by
  intro fuel₁
  induction fuel₁ with
  | zero =>
      intro fuel₂ b t h₁ _
      cases heval : evaluateBoard b with
      | some o => rw [xForcesWinFuel_terminal heval, xForcesWinFuel_terminal heval]
      | none =>
          have := countEmpty_pos_of_eval_none heval
          omega
  | succ fuel₁' ih =>
      intro fuel₂ b t h₁ h₂
      cases heval : evaluateBoard b with
      | some o => rw [xForcesWinFuel_terminal heval, xForcesWinFuel_terminal heval]
      | none =>
          have hpos := countEmpty_pos_of_eval_none heval
          cases fuel₂ with
          | zero => omega
          | succ fuel₂' =>
              show xForcesWinFuel (fuel₁' + 1) b t = xForcesWinFuel (fuel₂' + 1) b t
              simp only [xForcesWinFuel, heval]
              cases t with
              | player =>
                  apply any_fn_congr
                  intro i hi
                  have hce := countEmpty_child hi Mark.X
                  exact ih fuel₂' _ _ (by omega) (by omega)
              | comp =>
                  apply all_fn_congr
                  intro i hi
                  have hce := countEmpty_child hi Mark.O
                  exact ih fuel₂' _ _ (by omega) (by omega)

lemma evaluateBoard_some_shape {b : Board} {o : Outcome} (h : evaluateBoard b = some o) :
    o = ⟨none, none, true⟩ ∨ ∃ m c, o = ⟨some m, some c, false⟩ := by
  unfold evaluateBoard at h
  split at h
  · rename_i o' heq
    injection h with h
    subst h
    obtain ⟨l₁, a, l₂, -, hfa, -⟩ := findSome?_eq_some_iff.mp heq
    obtain ⟨m, -, hmap⟩ := Option.map_eq_some'.mp hfa
    exact Or.inr ⟨m, a, hmap.symm⟩
  · split at h
    · injection h with h
      exact Or.inl h.symm
    · cases h

lemma terminalValue_neg_iff {b : Board} {o : Outcome} (h : evaluateBoard b = some o)
    {d : Nat} (hd : d ≤ 9) :
    (jlt (terminalValue o d) (JNum.fin 0) = true ↔
      decide (o.winner = some Mark.X) = true) := by
  rcases evaluateBoard_some_shape h with rfl | ⟨m, c, rfl⟩
  · simp [terminalValue, jlt]
  · cases m with
    | O =>
        simp only [terminalValue, jlt]
        simp
        omega
    | X =>
        simp only [terminalValue, jlt]
        simp
        omega

lemma minimaxFuel_neg_iff :
    ∀ (fuel : Nat) (b : Board) (d : Nat) (im : Bool),
      countEmpty b ≤ fuel → d + countEmpty b ≤ 9 →
      (jlt (minimaxFuel fuel b d im none) (JNum.fin 0) = true ↔
        xForcesWinFuel fuel b (turnOfMax im) = true) := by
  intro fuel
  induction fuel with
  | zero =>
      intro b d im hce hdepth
      cases heval : evaluateBoard b with
      | some o =>
          rw [minimaxFuel_terminal heval, xForcesWinFuel_terminal heval]
          exact terminalValue_neg_iff heval (by omega)
      | none =>
          have := countEmpty_pos_of_eval_none heval
          omega
  | succ fuel' ih =>
      intro b d im hce hdepth
      cases heval : evaluateBoard b with
      | some o =>
          rw [minimaxFuel_terminal heval, xForcesWinFuel_terminal heval]
          exact terminalValue_neg_iff heval (by omega)
      | none =>
          have hpos := countEmpty_pos_of_eval_none heval
          simp only [minimaxFuel, xForcesWinFuel, heval, capReached, Bool.false_eq_true,
            if_false]
          cases im with
          | true =>
              simp only [turnOfMax, if_true]
              rw [foldl_jmax_lt, List.all_eq_true]
              constructor
              · rintro ⟨-, hall⟩ i hi
                have hc := countEmpty_child hi Mark.O
                exact (ih _ _ _ (by omega) (by omega)).mp (hall i hi)
              · intro hall
                refine ⟨rfl, fun i hi => ?_⟩
                have hc := countEmpty_child hi Mark.O
                exact (ih _ _ _ (by omega) (by omega)).mpr (hall i hi)
          | false =>
              simp only [turnOfMax, Bool.false_eq_true, if_false]
              rw [foldl_jmin_lt, List.any_eq_true]
              constructor
              · rintro (hff | ⟨i, hi, hil⟩)
                · cases hff
                · have hc := countEmpty_child hi Mark.X
                  exact ⟨i, hi, (ih _ _ _ (by omega) (by omega)).mp hil⟩
              · rintro ⟨i, hi, hil⟩
                have hc := countEmpty_child hi Mark.X
                exact Or.inr ⟨i, hi, (ih _ _ _ (by omega) (by omega)).mpr hil⟩

lemma safe_preserved {p q : Board × Turn} (hstep : HardStep p q) (hp : SafeState p) :
    SafeState q := by
  cases hstep with
  | comp b m blunder choice heval hmove =>
      obtain ⟨h9, hsafe⟩ := hp
      have h9' : b.length = 9 := h9
      have hmove' : getBestMove b none = some m := hmove
      have hne := emptyIdx_ne_nil_of_eval_none heval
      obtain ⟨m', hgb, hmem, hmax, -⟩ := getBestMove_spec none hne
      rw [hgb] at hmove'
      injection hmove' with hmeq
      subst hmeq
      have hce9 : countEmpty b ≤ 9 := h9' ▸ countEmpty_le_length b
      have hsafe' : xForcesWinFuel 9 b Turn.comp = false := by
        rw [show (9 : Nat) = b.length from h9'.symm]
        exact hsafe
      have hall : (emptyIdx b).all
          (fun i => xForcesWinFuel 8 (b.set i (some Mark.O)) Turn.player) = false := by
        rw [show (9 : Nat) = 8 + 1 from rfl] at hsafe'
        simpa only [xForcesWinFuel, heval] using hsafe'
      obtain ⟨i, hi, hif⟩ := List.all_eq_false.mp hall
      have hifalse : xForcesWinFuel 8 (b.set i (some Mark.O)) Turn.player = false := by
        simpa using hif
      have hci := countEmpty_child hi Mark.O
      have hscore_i : jlt (minimax (b.set i (some Mark.O)) 0 false none)
          (JNum.fin 0) = false := by
        cases hv : jlt (minimax (b.set i (some Mark.O)) 0 false none) (JNum.fin 0) with
        | false => rfl
        | true =>
            have hsign := (minimaxFuel_neg_iff ((b.set i (some Mark.O)).length)
              (b.set i (some Mark.O)) 0 false (countEmpty_le_length _) (by omega)).mp hv
            have hsign' : xForcesWinFuel ((b.set i (some Mark.O)).length)
                (b.set i (some Mark.O)) Turn.player = true := hsign
            rw [xForcesWinFuel_congr ((b.set i (some Mark.O)).length) 8
              (b.set i (some Mark.O)) Turn.player
              (countEmpty_le_length _) (by omega)] at hsign'
            rw [hsign'] at hifalse
            cases hifalse
      have hscore_m : jlt (minimax (b.set m' (some Mark.O)) 0 false none)
          (JNum.fin 0) = false :=
        jlt_false_trans (hmax i hi) hscore_i
      have hcm := countEmpty_child hmem Mark.O
      refine ⟨by simpa using h9', ?_⟩
      show xForcesWinFuel ((b.set m' (some Mark.O)).length) (b.set m' (some Mark.O))
        Turn.player = false
      cases hv : xForcesWinFuel ((b.set m' (some Mark.O)).length) (b.set m' (some Mark.O))
          Turn.player with
      | false => rfl
      | true =>
          have hneg := (minimaxFuel_neg_iff ((b.set m' (some Mark.O)).length)
            (b.set m' (some Mark.O)) 0 false (countEmpty_le_length _) (by omega)).mpr hv
          have hneg' : jlt (minimax (b.set m' (some Mark.O)) 0 false none)
              (JNum.fin 0) = true := hneg
          rw [hneg'] at hscore_m
          cases hscore_m
  | player b i heval hlt hcell =>
      obtain ⟨h9, hsafe⟩ := hp
      have h9' : b.length = 9 := h9
      have hi : i ∈ emptyIdx b := mem_emptyIdx.mpr ⟨hlt, hcell⟩
      have hci := countEmpty_child hi Mark.X
      have hce9 : countEmpty b ≤ 9 := h9' ▸ countEmpty_le_length b
      have hsafe' : xForcesWinFuel 9 b Turn.player = false := by
        rw [show (9 : Nat) = b.length from h9'.symm]
        exact hsafe
      have hany : (emptyIdx b).any
          (fun j => xForcesWinFuel 8 (b.set j (some Mark.X)) Turn.comp) = false := by
        rw [show (9 : Nat) = 8 + 1 from rfl] at hsafe'
        simpa only [xForcesWinFuel, heval] using hsafe'
      have hf : xForcesWinFuel 8 (b.set i (some Mark.X)) Turn.comp = false := by
        simpa using List.any_eq_false.mp hany i hi
      refine ⟨by simpa using h9', ?_⟩
      show xForcesWinFuel ((b.set i (some Mark.X)).length) (b.set i (some Mark.X))
        Turn.comp = false
      rw [← xForcesWinFuel_congr 8 ((b.set i (some Mark.X)).length) (b.set i (some Mark.X))
        Turn.comp (by omega) (countEmpty_le_length _)]
      exact hf

lemma safe_no_xwin {p : Board × Turn} (hp : SafeState p) :
    ∀ o, evaluateBoard p.1 = some o → o.winner ≠ some Mark.X := by
  obtain ⟨-, hsafe⟩ := hp
  intro o heval hX
  have htrue : xCanForceWin p.1 p.2 = true := by
    show xForcesWinFuel p.1.length p.1 p.2 = true
    rw [xForcesWinFuel_terminal heval]
    simp [hX]
  rw [htrue] at hsafe
  cases hsafe

/-- C2: from any non-terminal 9-cell board at which the computer (about to
move) is not already lost — the player cannot force a win — every state
reached by alternating Hard computer moves (`getAiMove` at the Hard tier)
and arbitrary legal player moves is free of a player-won terminal
evaluation: the player's mark never wins. -/
theorem claim_C2 (b : Board) (h9 : b.length = 9) (hnt : evaluateBoard b = none)
    (hsafe : xCanForceWin b Turn.comp = false) :
    ∀ p, Relation.ReflTransGen HardStep (b, Turn.comp) p →
      ∀ o, evaluateBoard p.1 = some o → o.winner ≠ some Mark.X := by
  intro p hreach
  have hsp : SafeState p := by
    induction hreach with
    | refl => exact ⟨h9, hsafe⟩
    | tail hchain hstep ih => exact safe_preserved hstep ih
  exact safe_no_xwin hsp

/-- Witness for C2 at a concrete non-terminal safe board, taking the empty
(reflexive) play sequence. -/
theorem claim_C2_witness :
    (boardSafe.length = 9 ∧ evaluateBoard boardSafe = none ∧
      xCanForceWin boardSafe Turn.comp = false) ∧
    (∀ o, evaluateBoard boardSafe = some o → o.winner ≠ some Mark.X) :=
  ⟨⟨rfl, by decide, by decide⟩,
    claim_C2 boardSafe rfl (by decide) (by decide) (boardSafe, Turn.comp)
      Relation.ReflTransGen.refl⟩

/-! ## Every hypothetical placement is undone (C10 machinery) -/

lemma set_restore {b : Board} {i : Nat} (hlt : i < b.length) (hc : cellAt b i = none)
    (v : Cell) : (b.set i v).set i none = b := by
  rw [List.set_set]
  exact set_none_id b i hc

lemma STfold_board (fuel' d : Nat) (cap : Option Nat) (op : JNum → JNum → JNum)
    (mk : Mark) (im' : Bool)
    (ihm : ∀ x, (minimaxST fuel' x (d + 1) im' cap).2 = x) :
    ∀ (L : List Nat) (b : Board), (∀ i ∈ L, i < b.length) → ∀ a : JNum,
      (L.foldl (fun (acc : JNum × Board) i =>
        if cellAt acc.2 i = none then
          (op acc.1 (minimaxST fuel' (acc.2.set i (some mk)) (d + 1) im' cap).1,
           ((minimaxST fuel' (acc.2.set i (some mk)) (d + 1) im' cap).2).set i none)
        else acc) (a, b)).2 = b := by
  intro L
  induction L with
  | nil => intro b _ a; rfl
  | cons x t ih =>
      intro b hL a
      by_cases hc : cellAt b x = none
      · simp only [List.foldl_cons, if_pos hc, ihm (b.set x (some mk)),
          set_restore (hL x (by simp)) hc]
        exact ih b (fun i hi => hL i (by simp [hi])) _
      · simp only [List.foldl_cons, if_neg hc]
        exact ih b (fun i hi => hL i (by simp [hi])) a

lemma minimaxST_board :
    ∀ (fuel : Nat) (b : Board) (d : Nat) (im : Bool) (cap : Option Nat),
      (minimaxST fuel b d im cap).2 = b := by
  intro fuel
  induction fuel with
  | zero =>
      intro b d im cap
      cases heval : evaluateBoard b with
      | some o => simp only [minimaxST, heval]
      | none =>
          simp only [minimaxST, heval]
          split <;> rfl
  | succ fuel' ih =>
      intro b d im cap
      cases heval : evaluateBoard b with
      | some o => simp only [minimaxST, heval]
      | none =>
          simp only [minimaxST, heval]
          cases hcap : capReached cap d with
          | true => rw [if_pos rfl]
          | false =>
              rw [if_neg (by simp)]
              cases im with
              | true =>
                  rw [if_pos rfl]
                  exact STfold_board fuel' d cap jmax Mark.O false
                    (fun x => ih x (d + 1) false cap) (List.range b.length) b
                    (fun i hi => List.mem_range.mp hi) JNum.negInf
              | false =>
                  rw [if_neg (by simp)]
                  exact STfold_board fuel' d cap jmin Mark.X true
                    (fun x => ih x (d + 1) true cap) (List.range b.length) b
                    (fun i hi => List.mem_range.mp hi) JNum.posInf

lemma BSTfold_board (cap : Option Nat) :
    ∀ (L : List Nat) (b : Board), (∀ i ∈ L, i < b.length) →
      ∀ acc : JNum × Option Nat,
      (L.foldl (fun (acc : (JNum × Option Nat) × Board) i =>
        if cellAt acc.2 i = none then
          ((if jlt acc.1.1 (minimaxST (acc.2.set i (some Mark.O)).length
                (acc.2.set i (some Mark.O)) 0 false cap).1 then
              ((minimaxST (acc.2.set i (some Mark.O)).length
                (acc.2.set i (some Mark.O)) 0 false cap).1, some i)
            else acc.1),
           ((minimaxST (acc.2.set i (some Mark.O)).length
              (acc.2.set i (some Mark.O)) 0 false cap).2).set i none)
        else acc) (acc, b)).2 = b := by
  intro L
  induction L with
  | nil => intro b _ acc; rfl
  | cons x t ih =>
      intro b hL acc
      by_cases hc : cellAt b x = none
      · simp only [List.foldl_cons, if_pos hc,
          minimaxST_board ((b.set x (some Mark.O)).length) (b.set x (some Mark.O)) 0 false cap,
          set_restore (hL x (by simp)) hc]
        exact ih b (fun i hi => hL i (by simp [hi])) _
      · simp only [List.foldl_cons, if_neg hc]
        exact ih b (fun i hi => hL i (by simp [hi])) acc

lemma getBestMoveST_board (b : Board) (cap : Option Nat) :
    (getBestMoveST b cap).2 = b :=
  BSTfold_board cap (List.range b.length) b (fun i hi => List.mem_range.mp hi)
    (JNum.negInf, none)

/-- C10: the search never changes the board it is given.  In the
state-threading reading of the source's mutate-then-restore discipline,
`minimaxST`, `getBestMoveST` and `getAiMoveST` (the latter covering every
difficulty tier including the Easy blunder branch) all return the board
exactly as it was passed in: every hypothetical placement is undone. -/
theorem claim_C10 (b : Board) (difficulty : Difficulty) (blunder : Bool) (choice : Nat)
    (fuel d : Nat) (im : Bool) (cap : Option Nat) :
    (minimaxST fuel b d im cap).2 = b ∧
    (getBestMoveST b cap).2 = b ∧
    (getAiMoveST b difficulty blunder choice).2 = b := by
  refine ⟨minimaxST_board fuel b d im cap, getBestMoveST_board b cap, ?_⟩
  unfold getAiMoveST
  by_cases hcase : difficulty = Difficulty.easy ∧ blunder = true
  · rw [if_pos hcase]
  · rw [if_neg hcase]
    exact getBestMoveST_board b _

end TTT

namespace Promo

/-! ## JS `Map` lemmas -/

lemma mapGet_cons {α : Type} (k' : String) (v : α) (t : JMap α) (k : String) :
    mapGet ((k', v) :: t) k = if k' = k then some v else mapGet t k := by
  unfold mapGet
  rw [List.find?_cons]
  by_cases h : k' = k
  · simp [h]
  · simp [h]

lemma findKey_cons {α : Type} (k' : String) (v : α) (t : JMap α) (k : String) :
    (List.find? (fun p => p.1 = k) ((k', v) :: t)).isSome =
      if k' = k then true else (List.find? (fun p => p.1 = k) t).isSome := by
  rw [List.find?_cons]
  by_cases h : k' = k
  · simp [h]
  · simp [h]

lemma mapGet_eq_none_iff_find? {α : Type} {m : JMap α} {k : String} :
    mapGet m k = none ↔ List.find? (fun p => p.1 = k) m = none := by
  unfold mapGet
  cases List.find? (fun p => p.1 = k) m <;> simp

lemma mapGet_append_left_none {α : Type} :
    ∀ (m l : JMap α) (k : String), mapGet m k = none → mapGet (m ++ l) k = mapGet l k := by
  intro m
  induction m with
  | nil => intro l k _; rfl
  | cons p t ih =>
      intro l k h
      obtain ⟨k₁, v₁⟩ := p
      rw [mapGet_cons] at h
      by_cases hk : k₁ = k
      · rw [if_pos hk] at h; cases h
      · rw [if_neg hk] at h
        rw [List.cons_append, mapGet_cons, if_neg hk]
        exact ih l k h

lemma mapGet_map_overwrite {α : Type} (k : String) (v : α) :
    ∀ m : JMap α, (List.find? (fun p => p.1 = k) m).isSome = true →
      mapGet (m.map (fun p => if p.1 = k then (k, v) else p)) k = some v := by
  intro m
  induction m with
  | nil => intro h; cases h
  | cons p t ih =>
      intro h
      obtain ⟨k₁, v₁⟩ := p
      rw [findKey_cons] at h
      by_cases hk : k₁ = k
      · rw [List.map_cons, if_pos (show (k₁, v₁).1 = k from hk), mapGet_cons, if_pos rfl]
      · rw [if_neg hk] at h
        rw [List.map_cons, if_neg (show ¬ (k₁, v₁).1 = k from hk), mapGet_cons, if_neg hk]
        exact ih h

lemma mapGet_mapSet_self {α : Type} (m : JMap α) (k : String) (v : α) :
    mapGet (mapSet m k v) k = some v := by
  unfold mapSet
  by_cases hf : (List.find? (fun p => p.1 = k) m).isSome = true
  · rw [if_pos hf]
    exact mapGet_map_overwrite k v m hf
  · rw [if_neg hf]
    have hnone : mapGet m k = none := by
      rw [mapGet_eq_none_iff_find?]
      exact Option.not_isSome_iff_eq_none.mp hf
    rw [mapGet_append_left_none m _ k hnone, mapGet_cons, if_pos rfl]

lemma mapGet_filter_keep {α : Type} (p : String × α → Bool) :
    ∀ (m : JMap α) (k : String) (v : α), mapGet m k = some v → p (k, v) = true →
      mapGet (m.filter p) k = some v := by
  intro m
  induction m with
  | nil => intro k v h _; cases h
  | cons q t ih =>
      intro k v h hp
      obtain ⟨k₁, v₁⟩ := q
      rw [mapGet_cons] at h
      by_cases hk : k₁ = k
      · rw [if_pos hk] at h
        injection h with h
        subst hk; subst h
        rw [List.filter_cons, if_pos (by simpa using hp), mapGet_cons, if_pos rfl]
      · rw [if_neg hk] at h
        rw [List.filter_cons]
        by_cases hq : p (k₁, v₁) = true
        · rw [if_pos (by simpa using hq), mapGet_cons, if_neg hk]
          exact ih k v h hp
        · rw [if_neg (by simpa using hq)]
          exact ih k v h hp

lemma mapGet_filter_none {α : Type} (p : String × α → Bool) :
    ∀ (m : JMap α) (k : String), mapGet m k = none → mapGet (m.filter p) k = none := by
  intro m
  induction m with
  | nil => intro k _; rfl
  | cons q t ih =>
      intro k h
      obtain ⟨k₁, v₁⟩ := q
      rw [mapGet_cons] at h
      by_cases hk : k₁ = k
      · rw [if_pos hk] at h; cases h
      · rw [if_neg hk] at h
        rw [List.filter_cons]
        by_cases hq : p (k₁, v₁) = true
        · rw [if_pos (by simpa using hq), mapGet_cons, if_neg hk]
          exact ih k h
        · rw [if_neg (by simpa using hq)]
          exact ih k h

lemma mapGet_eq_none_of_not_mem_keys {α : Type} (m : JMap α) (k : String)
    (h : k ∉ m.map Prod.fst) : mapGet m k = none := by
  rw [mapGet_eq_none_iff_find?, List.find?_eq_none]
  intro x hx
  simp only [decide_eq_true_eq]
  intro hxk
  exact h (List.mem_map.mpr ⟨x, hx, hxk⟩)

lemma mapGet_filter_drop {α : Type} (p : String × α → Bool) :
    ∀ m : JMap α, keysNodup m → ∀ (k : String) (v : α), mapGet m k = some v →
      p (k, v) = false → mapGet (m.filter p) k = none := by
  intro m
  induction m with
  | nil => intro _ k v h _; cases h
  | cons q t ih =>
      intro hnd k v h hp
      obtain ⟨k₁, v₁⟩ := q
      have hnd' : k₁ ∉ t.map Prod.fst ∧ keysNodup t := by
        have := hnd
        unfold keysNodup at this ⊢
        rw [List.map_cons, List.nodup_cons] at this
        exact this
      rw [mapGet_cons] at h
      by_cases hk : k₁ = k
      · rw [if_pos hk] at h
        injection h with h
        subst hk; subst h
        rw [List.filter_cons, if_neg (by simp [hp])]
        exact mapGet_filter_none p t k₁ (mapGet_eq_none_of_not_mem_keys t k₁ hnd'.1)
      · rw [if_neg hk] at h
        rw [List.filter_cons]
        by_cases hq : p (k₁, v₁) = true
        · rw [if_pos (by simpa using hq), mapGet_cons, if_neg hk]
          exact ih hnd'.2 k v h hp
        · rw [if_neg (by simpa using hq)]
          exact ih hnd'.2 k v h hp

/-! ## Symbolic runs of the result endpoint -/

lemma cooldown_le_ttl : SESSION_COOLDOWN_MS ≤ PROMO_TTL_MS := by decide

lemma pruneSession_eq (now : Nat) (s : ServerState) :
    (pruneExpired now s).issuedBySession =
      s.issuedBySession.filter (fun p => now - p.2.createdAt ≤ PROMO_TTL_MS) := rfl

lemma pruneCodes_eq (now : Nat) (s : ServerState) :
    (pruneExpired now s).issuedCodes =
      s.issuedCodes.filter (fun p => now - p.2.createdAt ≤ PROMO_TTL_MS) := rfl

lemma pruneEvents_eq (now : Nat) (s : ServerState) :
    (pruneExpired now s).processedEvents =
      s.processedEvents.filter (fun p => now - p.2.createdAt ≤ EVENT_TTL_MS) := rfl

lemma postResult_invalid {s : ServerState} {req : ResultRequest} {sid : String}
    {now : Nat} {cands : List String} (hval : validPayload req = false) :
    postResult s req sid now cands = ⟨s, ApiResponse.badRequest, none⟩ := by
  unfold postResult
  rw [if_neg (by rw [hval]; exact Bool.false_ne_true)]

lemma postResult_cached {s : ServerState} {req : ResultRequest} {sid : String}
    {now : Nat} {cands : List String} {cached : EventEntry}
    (hval : validPayload req = true)
    (hc : cacheHit (pruneExpired now s) req.eventId = some cached) :
    postResult s req sid now cands =
      ⟨pruneExpired now s, ApiResponse.ok cached.response, none⟩ := by
  unfold postResult
  rw [if_pos hval]
  simp only [hc]

lemma postResult_loss {s : ServerState} {req : ResultRequest} {sid : String}
    {now : Nat} {cands : List String} (hval : validPayload req = true)
    (hres : req.result = "loss")
    (hc : cacheHit (pruneExpired now s) req.eventId = none) :
    postResult s req sid now cands =
      ⟨recordEvent req.eventId now ⟨"ok", none⟩ (pruneExpired now s),
       ApiResponse.ok ⟨"ok", none⟩, some lossMessage⟩ := by
  unfold postResult
  rw [if_pos hval]
  simp only [hc, hres]
  rw [if_neg (by decide), if_pos trivial]

lemma postResult_draw {s : ServerState} {req : ResultRequest} {sid : String}
    {now : Nat} {cands : List String} (hval : validPayload req = true)
    (hres : req.result = "draw")
    (hc : cacheHit (pruneExpired now s) req.eventId = none) :
    postResult s req sid now cands =
      ⟨recordEvent req.eventId now ⟨"ok", none⟩ (pruneExpired now s),
       ApiResponse.ok ⟨"ok", none⟩, none⟩ := by
  unfold postResult
  rw [if_pos hval]
  simp only [hc, hres]
  rw [if_neg (by decide), if_neg (by decide)]

lemma postResult_win_reuse {s : ServerState} {sid : String} {now : Nat}
    {cands : List String} {eid : Option String} {code : String} {s₂ : ServerState}
    (hval : validPayload ⟨"win", eid⟩ = true)
    (hc : cacheHit (pruneExpired now s) eid = none)
    (hget : getSessionPromo now (pruneExpired now s) sid = (some code, s₂)) :
    postResult s ⟨"win", eid⟩ sid now cands =
      ⟨recordEvent eid now ⟨"ok", some code⟩ s₂,
       ApiResponse.ok ⟨"ok", some code⟩, none⟩ := by
  unfold postResult winBranch
  rw [if_pos hval]
  simp only [hc, hget]
  rw [if_pos trivial]

lemma postResult_win_mint {s : ServerState} {sid : String} {now : Nat}
    {cands : List String} {eid : Option String} {code : String} {s₂ : ServerState}
    (hval : validPayload ⟨"win", eid⟩ = true)
    (hc : cacheHit (pruneExpired now s) eid = none)
    (hget : getSessionPromo now (pruneExpired now s) sid = (none, s₂))
    (hgen : generateUniquePromoCode s₂.issuedCodes cands = some code) :
    postResult s ⟨"win", eid⟩ sid now cands =
      ⟨recordEvent eid now ⟨"ok", some code⟩
          { s₂ with
              issuedCodes := mapSet s₂.issuedCodes code ⟨now, sid, false⟩,
              issuedBySession := mapSet s₂.issuedBySession sid ⟨code, now⟩ },
       ApiResponse.ok ⟨"ok", some code⟩, some (winMessage code)⟩ := by
  unfold postResult winBranch
  rw [if_pos hval]
  simp only [hc, hget, hgen]
  rw [if_pos trivial]

lemma postResult_win_fail {s : ServerState} {sid : String} {now : Nat}
    {cands : List String} {eid : Option String} {s₂ : ServerState}
    (hval : validPayload ⟨"win", eid⟩ = true)
    (hc : cacheHit (pruneExpired now s) eid = none)
    (hget : getSessionPromo now (pruneExpired now s) sid = (none, s₂))
    (hgen : generateUniquePromoCode s₂.issuedCodes cands = none) :
    postResult s ⟨"win", eid⟩ sid now cands = ⟨s₂, ApiResponse.serverError, none⟩ := by
  unfold postResult winBranch
  rw [if_pos hval]
  simp only [hc, hget, hgen]
  rw [if_pos trivial]

lemma getSessionPromo_absent {now : Nat} {s : ServerState} {sid : String}
    (h : mapGet s.issuedBySession sid = none) :
    getSessionPromo now s sid = (none, s) := by
  unfold getSessionPromo
  simp only [h]

lemma getSessionPromo_reuse {now : Nat} {s : ServerState} {sid : String} {en : SessionEntry}
    (h : mapGet s.issuedBySession sid = some en)
    (hcool : now - en.createdAt < SESSION_COOLDOWN_MS) :
    getSessionPromo now s sid = (some en.code, s) := by
  unfold getSessionPromo
  simp only [h]
  rw [if_neg (by have := cooldown_le_ttl; omega), if_pos hcool]

lemma getSessionPromo_stale {now : Nat} {s : ServerState} {sid : String} {en : SessionEntry}
    (h : mapGet s.issuedBySession sid = some en)
    (hc1 : ¬ now - en.createdAt > PROMO_TTL_MS)
    (hc2 : ¬ now - en.createdAt < SESSION_COOLDOWN_MS) :
    getSessionPromo now s sid = (none, s) := by
  unfold getSessionPromo
  simp only [h]
  rw [if_neg hc1, if_neg hc2]

/-- C8: a result report whose `result` is not one of `win`/`loss`/`draw`,
or whose `eventId` is present with fewer than 6 or more than 64
characters, is rejected as `Invalid payload` before any mutation — the
stores it returns are exactly the stores it was given (not even pruned)
and no notification is queued. -/
theorem claim_C8 (s : ServerState) (req : ResultRequest) (sid : String) (now : Nat)
    (cands : List String)
    (hbad : ¬(req.result = "win" ∨ req.result = "loss" ∨ req.result = "draw") ∨
      ∃ e, req.eventId = some e ∧ (e.length < 6 ∨ 64 < e.length)) :
    postResult s req sid now cands = ⟨s, ApiResponse.badRequest, none⟩ := by
  have hval : validPayload req = false := by
    unfold validPayload
    rcases hbad with hres | ⟨e, he, hlen⟩
    · simp [hres]
    · rw [he]
      rcases hlen with h | h
      · have h6 : ¬ (6 ≤ e.length) := by omega
        simp [h6]
      · have h64 : ¬ (e.length ≤ 64) := by omega
        simp [h64]
  exact postResult_invalid hval

/-- Witness for C8 at a concrete malformed report against a non-trivial
store: the request bounces and the store is untouched. -/
theorem claim_C8_witness :
    (¬(("oops" : String) = "win" ∨ ("oops" : String) = "loss" ∨
        ("oops" : String) = "draw") ∨
      ∃ e, (none : Option String) = some e ∧ (e.length < 6 ∨ 64 < e.length)) ∧
    postResult stateA ⟨"oops", none⟩ "alice" 0 [] =
      ⟨stateA, ApiResponse.badRequest, none⟩ :=
  ⟨Or.inl (by decide),
    claim_C8 stateA ⟨"oops", none⟩ "alice" 0 [] (Or.inl (by decide))⟩

/-- Counterexample to C9 as frozen: a valid `loss` report answered from
the idempotency cache queues no notification at all, not the fixed loss
message. -/
theorem claim_C9_counterexample :
    validPayload ⟨"loss", some "abcdef"⟩ = true ∧
    (postResult stateA ⟨"loss", some "abcdef"⟩ "alice" 0 []).notification ≠
      some lossMessage := by
  constructor
  · rfl
  · decide

/-- C9 (amended): a valid `loss` or `draw` report leaves both promo ledger
indices unchanged apart from lazy expiry pruning; when the report is not
answered from the idempotency cache, a `loss` queues exactly the fixed
notification message and a `draw` queues none; a report answered from the
cache queues nothing. -/
theorem claim_C9 (s : ServerState) (req : ResultRequest) (sid : String) (now : Nat)
    (cands : List String) (hval : validPayload req = true)
    (hres : req.result = "loss" ∨ req.result = "draw") :
    ((postResult s req sid now cands).state.issuedBySession =
        (pruneExpired now s).issuedBySession ∧
      (postResult s req sid now cands).state.issuedCodes =
        (pruneExpired now s).issuedCodes) ∧
    (cacheHit (pruneExpired now s) req.eventId = none →
      (postResult s req sid now cands).response = ApiResponse.ok ⟨"ok", none⟩ ∧
      (postResult s req sid now cands).notification =
        (if req.result = "loss" then some lossMessage else none)) ∧
    (∀ c, cacheHit (pruneExpired now s) req.eventId = some c →
      (postResult s req sid now cands).notification = none) := by
  cases hchit : cacheHit (pruneExpired now s) req.eventId with
  | some cached =>
      rw [postResult_cached hval hchit]
      refine ⟨⟨rfl, rfl⟩, ?_, ?_⟩
      · intro h; cases h
      · intro c _; rfl
  | none =>
      have hrun : postResult s req sid now cands =
          ⟨recordEvent req.eventId now ⟨"ok", none⟩ (pruneExpired now s),
           ApiResponse.ok ⟨"ok", none⟩,
           if req.result = "loss" then some lossMessage else none⟩ := by
        rcases hres with h | h
        · rw [postResult_loss hval h hchit, h, if_pos rfl]
        · rw [postResult_draw hval h hchit, h, if_neg (by decide)]
      rw [hrun]
      refine ⟨⟨?_, ?_⟩, ?_, ?_⟩
      · show (recordEvent req.eventId now ⟨"ok", none⟩
          (pruneExpired now s)).issuedBySession = _
        cases req.eventId <;> rfl
      · show (recordEvent req.eventId now ⟨"ok", none⟩
          (pruneExpired now s)).issuedCodes = _
        cases req.eventId <;> rfl
      · intro _; exact ⟨rfl, rfl⟩
      · intro c hc
        cases hc

/-- Witness for C9 at a concrete uncached loss report against the empty
store: the ledger indices stay empty and the fixed loss message is
queued. -/
theorem claim_C9_witness :
    (validPayload ⟨"loss", some "abcdef"⟩ = true ∧
      cacheHit (pruneExpired 0 stateEmpty) (some "abcdef") = none) ∧
    ((postResult stateEmpty ⟨"loss", some "abcdef"⟩ "alice" 0 []).state.issuedBySession =
        (pruneExpired 0 stateEmpty).issuedBySession ∧
      (postResult stateEmpty ⟨"loss", some "abcdef"⟩ "alice" 0 []).state.issuedCodes =
        (pruneExpired 0 stateEmpty).issuedCodes) ∧
    (postResult stateEmpty ⟨"loss", some "abcdef"⟩ "alice" 0 []).response =
      ApiResponse.ok ⟨"ok", none⟩ ∧
    (postResult stateEmpty ⟨"loss", some "abcdef"⟩ "alice" 0 []).notification =
      (if ("loss" : String) = "loss" then some lossMessage else none) := by
  have h := claim_C9 stateEmpty ⟨"loss", some "abcdef"⟩ "alice" 0 [] rfl (Or.inl rfl)
  exact ⟨⟨rfl, rfl⟩, h.1, h.2.1 rfl⟩

/-! ## Idempotency of win reports (C3 machinery) -/

lemma postResult_ok_valid {s s' : ServerState} {req : ResultRequest} {sid : String}
    {now : Nat} {cands : List String} {p : ResponsePayload} {n : Option String}
    (h : postResult s req sid now cands = ⟨s', ApiResponse.ok p, n⟩) :
    validPayload req = true := by
  by_cases hval : validPayload req = true
  · exact hval
  · rw [postResult_invalid (by simpa using hval)] at h
    injection h with h1 h2 h3
    cases h2

lemma postResult_ok_win_event {s s' : ServerState} {e sid : String} {now : Nat}
    {cands : List String} {p : ResponsePayload} {n : Option String}
    (h : postResult s ⟨"win", some e⟩ sid now cands = ⟨s', ApiResponse.ok p, n⟩) :
    ∃ t, mapGet s'.processedEvents e = some ⟨t, p⟩ := by
  have hval := postResult_ok_valid h
  cases hchit : cacheHit (pruneExpired now s) (some e) with
  | some cached =>
      rw [postResult_cached hval hchit] at h
      injection h with h1 h2 h3
      injection h2 with h2
      refine ⟨cached.createdAt, ?_⟩
      rw [← h1, ← h2]
      exact hchit
  | none =>
      cases hget : getSessionPromo now (pruneExpired now s) sid with
      | mk opt s₂ =>
          cases opt with
          | some code =>
              rw [postResult_win_reuse hval hchit hget] at h
              injection h with h1 h2 h3
              injection h2 with h2
              refine ⟨now, ?_⟩
              rw [← h1, ← h2]
              show mapGet (mapSet s₂.processedEvents e
                ⟨now, ⟨"ok", some code⟩⟩) e = _
              exact mapGet_mapSet_self _ _ _
          | none =>
              cases hgen : generateUniquePromoCode s₂.issuedCodes cands with
              | none =>
                  rw [postResult_win_fail hval hchit hget hgen] at h
                  injection h with h1 h2 h3
                  cases h2
              | some code =>
                  rw [postResult_win_mint hval hchit hget hgen] at h
                  injection h with h1 h2 h3
                  injection h2 with h2
                  refine ⟨now, ?_⟩
                  rw [← h1, ← h2]
                  show mapGet (mapSet s₂.processedEvents e
                    ⟨now, ⟨"ok", some code⟩⟩) e = _
                  exact mapGet_mapSet_self _ _ _

/-- C3: when a `win` report with event id `e` has been answered with an
`ok` payload, a second `win` report carrying the same event id — from any
session, with any candidate codes — that arrives while the idempotency
entry for `e` is still inside its 24-hour retention window receives
exactly the first call's payload, mutates nothing beyond the lazy expiry
prune, and in particular mints no promo code (the code index only
shrinks). -/
theorem claim_C3 (s₀ s₁ : ServerState) (p₁ : ResponsePayload) (n₁ : Option String)
    (e sid₁ sid₂ : String) (now₁ now₂ : Nat) (cands₁ cands₂ : List String)
    (en : EventEntry)
    (h1 : postResult s₀ ⟨"win", some e⟩ sid₁ now₁ cands₁ = ⟨s₁, ApiResponse.ok p₁, n₁⟩)
    (hen : mapGet s₁.processedEvents e = some en)
    (hfresh : now₂ - en.createdAt ≤ EVENT_TTL_MS) :
    postResult s₁ ⟨"win", some e⟩ sid₂ now₂ cands₂ =
      ⟨pruneExpired now₂ s₁, ApiResponse.ok p₁, none⟩ ∧
    (∀ c, mapGet s₁.issuedCodes c = none →
      mapGet (pruneExpired now₂ s₁).issuedCodes c = none) := by
  have hval := postResult_ok_valid h1
  obtain ⟨t, hev⟩ := postResult_ok_win_event h1
  rw [hev] at hen
  injection hen with hen
  have ht : en.createdAt = t := by rw [← hen]
  have hp : en.response = p₁ := by rw [← hen]
  have hkeep : mapGet (pruneExpired now₂ s₁).processedEvents e = some en := by
    rw [pruneEvents_eq]
    refine mapGet_filter_keep _ s₁.processedEvents e en (by rw [hen] at hev; exact hev) ?_
    simp only [decide_eq_true_eq]
    omega
  refine ⟨?_, ?_⟩
  · have hc : cacheHit (pruneExpired now₂ s₁) (some e) = some en := hkeep
    rw [postResult_cached hval hc, hp]
  · intro c hc
    rw [pruneCodes_eq]
    exact mapGet_filter_none _ s₁.issuedCodes c hc

/-- Witness for C3: a concrete first win call against the empty store
mints `12345` and caches the response; the replay 995 ms later returns the
identical payload and mints nothing. -/
theorem claim_C3_witness :
    (postResult stateEmpty ⟨"win", some "abcdef"⟩ "alice" 5 ["12345"] =
        ⟨stateB, ApiResponse.ok ⟨"ok", some "12345"⟩, some (winMessage "12345")⟩ ∧
      mapGet stateB.processedEvents "abcdef" =
        some ⟨5, ⟨"ok", some "12345"⟩⟩ ∧
      (1000 : Nat) - 5 ≤ EVENT_TTL_MS) ∧
    (postResult stateB ⟨"win", some "abcdef"⟩ "bob" 1000 ["99999"] =
        ⟨pruneExpired 1000 stateB, ApiResponse.ok ⟨"ok", some "12345"⟩, none⟩ ∧
      (∀ c, mapGet stateB.issuedCodes c = none →
        mapGet (pruneExpired 1000 stateB).issuedCodes c = none)) := by
  refine ⟨⟨by decide, by decide, by decide⟩, ?_⟩
  exact claim_C3 stateEmpty stateB ⟨"ok", some "12345"⟩ (some (winMessage "12345"))
    "abcdef" "alice" "bob" 5 1000 ["12345"] ["99999"] ⟨5, ⟨"ok", some "12345"⟩⟩
    (by decide) (by decide) (by decide)

/-! ## Promo ledger cooldown (C4 machinery) -/

/-- Counterexample to C4 as frozen: a win report answered from the
idempotency cache does not return the session's fresh ledger code — the
session `alice` holds code `11111`, its entry is well inside both windows,
yet the report is answered with the cached `22222`. -/
theorem claim_C4_counterexample :
    mapGet stateA.issuedBySession "alice" = some ⟨"11111", 0⟩ ∧
    (0 : Nat) - 0 < SESSION_COOLDOWN_MS ∧
    (0 : Nat) - 0 ≤ PROMO_TTL_MS ∧
    validPayload ⟨"win", some "abcdef"⟩ = true ∧
    (postResult stateA ⟨"win", some "abcdef"⟩ "alice" 0 []).response ≠
      ApiResponse.ok ⟨"ok", some "11111"⟩ := by
  refine ⟨rfl, by decide, by decide, rfl, by decide⟩

/-- C4 (amended): for a valid win report not answered from the
idempotency cache — (i) a session entry younger than the cooldown window
is returned unchanged and nothing is minted; (ii) an absent entry, or one
older than the promo TTL (under the `Map` key-uniqueness invariant),
leads to a fresh mint, recorded in both indices, provided one of the 20
generated candidates is unused; (iii) an entry aged between the cooldown
window and the promo TTL likewise leads to a new mint. -/
theorem claim_C4 (s : ServerState) (sid : String) (now : Nat) (eid : Option String)
    (cands : List String)
    (hval : validPayload ⟨"win", eid⟩ = true)
    (hmiss : cacheHit (pruneExpired now s) eid = none) :
    (∀ en, mapGet s.issuedBySession sid = some en →
      now - en.createdAt < SESSION_COOLDOWN_MS →
      postResult s ⟨"win", eid⟩ sid now cands =
        ⟨recordEvent eid now ⟨"ok", some en.code⟩ (pruneExpired now s),
         ApiResponse.ok ⟨"ok", some en.code⟩, none⟩) ∧
    (keysNodup s.issuedBySession →
      (mapGet s.issuedBySession sid = none ∨
        (∃ en, mapGet s.issuedBySession sid = some en ∧
          PROMO_TTL_MS < now - en.createdAt)) →
      ∀ code, generateUniquePromoCode (pruneExpired now s).issuedCodes cands = some code →
        (postResult s ⟨"win", eid⟩ sid now cands).response =
          ApiResponse.ok ⟨"ok", some code⟩ ∧
        mapGet (postResult s ⟨"win", eid⟩ sid now cands).state.issuedBySession sid =
          some ⟨code, now⟩ ∧
        mapGet (postResult s ⟨"win", eid⟩ sid now cands).state.issuedCodes code =
          some ⟨now, sid, false⟩) ∧
    (∀ en, mapGet s.issuedBySession sid = some en →
      SESSION_COOLDOWN_MS ≤ now - en.createdAt → now - en.createdAt ≤ PROMO_TTL_MS →
      ∀ code, generateUniquePromoCode (pruneExpired now s).issuedCodes cands = some code →
        (postResult s ⟨"win", eid⟩ sid now cands).response =
          ApiResponse.ok ⟨"ok", some code⟩) := by
  refine ⟨?_, ?_, ?_⟩
  · intro en hen hcool
    have hkeep : mapGet (pruneExpired now s).issuedBySession sid = some en := by
      rw [pruneSession_eq]
      refine mapGet_filter_keep _ s.issuedBySession sid en hen ?_
      show decide (now - en.createdAt ≤ PROMO_TTL_MS) = true
      exact decide_eq_true (by have := cooldown_le_ttl; omega)
    exact postResult_win_reuse hval hmiss (getSessionPromo_reuse hkeep hcool)
  · intro hnd habs code hgen
    have hnone : mapGet (pruneExpired now s).issuedBySession sid = none := by
      rw [pruneSession_eq]
      rcases habs with h | ⟨en, hen, hexp⟩
      · exact mapGet_filter_none _ s.issuedBySession sid h
      · refine mapGet_filter_drop _ s.issuedBySession hnd sid en hen ?_
        show decide (now - en.createdAt ≤ PROMO_TTL_MS) = false
        exact decide_eq_false (by omega)
    have hrun := postResult_win_mint hval hmiss (getSessionPromo_absent hnone) hgen
    rw [hrun]
    refine ⟨rfl, ?_, ?_⟩
    · cases eid with
      | none => exact mapGet_mapSet_self _ _ _
      | some e =>
          show mapGet (mapSet (pruneExpired now s).issuedBySession sid ⟨code, now⟩) sid = _
          exact mapGet_mapSet_self _ _ _
    · cases eid with
      | none => exact mapGet_mapSet_self _ _ _
      | some e =>
          show mapGet (mapSet (pruneExpired now s).issuedCodes code ⟨now, sid, false⟩)
            code = _
          exact mapGet_mapSet_self _ _ _
  · intro en hen hc1 hc2 code hgen
    have hkeep : mapGet (pruneExpired now s).issuedBySession sid = some en := by
      rw [pruneSession_eq]
      refine mapGet_filter_keep _ s.issuedBySession sid en hen ?_
      show decide (now - en.createdAt ≤ PROMO_TTL_MS) = true
      exact decide_eq_true (by omega)
    have hget := getSessionPromo_stale hkeep
      (show ¬ now - en.createdAt > PROMO_TTL_MS by omega)
      (show ¬ now - en.createdAt < SESSION_COOLDOWN_MS by omega)
    rw [postResult_win_mint hval hmiss hget hgen]

/-- Witness for C4 at a concrete reuse scenario: `alice` already holds
`11111` minted just now, and an uncached win report returns it without a
new mint. -/
theorem claim_C4_witness :
    (validPayload ⟨"win", (none : Option String)⟩ = true ∧
      cacheHit (pruneExpired 0 stateA) none = none ∧
      mapGet stateA.issuedBySession "alice" = some ⟨"11111", 0⟩ ∧
      (0 : Nat) - 0 < SESSION_COOLDOWN_MS) ∧
    postResult stateA ⟨"win", none⟩ "alice" 0 [] =
      ⟨recordEvent none 0 ⟨"ok", some "11111"⟩ (pruneExpired 0 stateA),
       ApiResponse.ok ⟨"ok", some "11111"⟩, none⟩ :=
  ⟨⟨rfl, rfl, rfl, by decide⟩,
    (claim_C4 stateA "alice" 0 none [] rfl rfl).1 ⟨"11111", 0⟩ rfl (by decide)⟩

end Promo
